import Mathlib

/-!
Shallow embedding of the thread-scheduler core of the `toe` kernel
(`src/sys/kernel/src/task/scheduler.rs`) and of its interrupt-safe ring
buffer (`src/sys/kernel/src/sync/fifo.rs`), with theorems checking the
specification against the code.

Machine integers (`usize`, `u64`, `u8`) are modelled as `Nat`: the embedded
code only compares, increments and decrements them inside guarded ranges, so
no wrap-around can occur.  The one masked-index computation of the ring
buffer keeps the source's `&&& (capacity - 1)` form.  Fallible operations
(`unwrap` panics, `Option`, `Result`) are modelled with `Option` / `Except`.
On the kernel's single processor every scheduler operation runs inside an
interrupt-masked critical section, so operation sequences are modelled as
sequential composition of atomic steps over an explicit scheduler state.
-/

namespace Toe

/-- Interrupt-safe ring buffer (`Fifo<T>`, src/sys/kernel/src/sync/fifo.rs):
a fixed slot store of size `cap` (`vec.len()`, a power of two enforced by
`Fifo::new`) with masked index counters `head` and `tail`. -/
structure Fifo (α : Type) where
  cap : Nat
  vec : Nat → α
  head : Nat
  tail : Nat

/-- `Fifo::mask`: `self.vec.len() - 1`. -/
def Fifo.mask (f : Fifo α) : Nat := f.cap - 1

/-- `Fifo::is_empty`: `head == tail`. -/
def Fifo.isEmpty (f : Fifo α) : Bool := f.head == f.tail

/-- `Fifo::enqueue`: fails, returning the rejected item, when advancing
`tail` would collide with `head`; otherwise writes the item into the old
`tail` slot and advances `tail`. -/
def Fifo.enqueue (f : Fifo α) (data : α) : Except α (Fifo α) :=
  let oldTail := f.tail
  let newTail := (oldTail + 1) &&& f.mask
  if newTail = f.head then Except.error data
  else
    Except.ok { f with vec := fun i => if i = oldTail then data else f.vec i, tail := newTail }

/-- `Fifo::dequeue`: returns `none` when empty, otherwise reads the slot at
`head` and advances `head`. -/
def Fifo.dequeue (f : Fifo α) : Option (α × Fifo α) :=
  if f.isEmpty then none
  else some (f.vec f.head, { f with head := (f.head + 1) &&& f.mask })

/-- Number of items currently stored: the distance from `head` forward to
`tail` around the ring. -/
def Fifo.count (f : Fifo α) : Nat :=
  if f.head ≤ f.tail then f.tail - f.head else f.cap + f.tail - f.head

/-- The stored items, oldest first. -/
def Fifo.contents (f : Fifo α) : List α :=
  (List.range f.count).map fun i => f.vec ((f.head + i) % f.cap)

/-- The ring is at its maximum occupancy: the index discipline always keeps
one slot unused, so the buffer holds at most `cap - 1` items. -/
def Fifo.isFull (f : Fifo α) : Bool := f.count == f.cap - 1

/-- Well-formedness established by `Fifo::new` (which panics unless the
capacity is a power of two, hence `cap` is positive) and preserved by the
masked index updates. -/
structure Fifo.WF (f : Fifo α) : Prop where
  pow : ∃ k, f.cap = 2 ^ k
  head_lt : f.head < f.cap
  tail_lt : f.tail < f.cap

/-- Thread priority (`enum Priority`). -/
inductive Priority
  | idle
  | low
  | normal
  | high
  | realtime
deriving DecidableEq, Repr

/-- Quantum counter (`struct Quantum`): ticks remaining before forced
preemption, plus the reset value. -/
structure Quantum where
  current : Nat
  default : Nat
deriving DecidableEq, Repr

/-- `Quantum::new`. -/
def Quantum.new (value : Nat) : Quantum := { current := value, default := value }

/-- `Quantum::consume`: decrement while more than one tick remains
(reporting `false`); otherwise reset the counter to the default and report
exhaustion (`true`). -/
def Quantum.consume (q : Quantum) : Quantum × Bool :=
  if 1 < q.current then ({ q with current := q.current - 1 }, false)
  else ({ q with current := q.default }, true)

/-- `impl From<Priority> for Quantum`: the configured default quantum per
priority class. -/
def Quantum.ofPriority : Priority → Quantum
  | .high => Quantum.new 25
  | .normal => Quantum.new 10
  | .low => Quantum.new 5
  | _ => Quantum.new 1

/-- The results of `n` successive `Quantum::consume` calls on one counter
(no intervening reset): the final counter and the list of reported
exhaustion flags, in call order. -/
def Quantum.consumeRun (q : Quantum) : Nat → Quantum × List Bool
  | 0 => (q, [])
  | n + 1 =>
    match q.consume with
    | (q1, b) =>
      match q1.consumeRun n with
      | (q2, bs) => (q2, b :: bs)

/-- The four attribute flags (`bitflags ThreadAttributes`). -/
inductive ThreadAttr
  | queued
  | asleep
  | awake
  | zombie
deriving DecidableEq, Repr

/-- Attribute bitset of a thread.  Modelled from the spec: the helper type
`AtomicBitflags` (src/sys/kernel/src/sync/atomicflags.rs) is not among the
excerpted sources; the spec describes the attributes as bit flags that are
independently settable, clearable and testable under interrupt masking, so
the bitset is embedded as one Boolean per flag with the standard
insert/remove/test operations the scheduler invokes on it. -/
structure ThreadAttributes where
  queued : Bool
  asleep : Bool
  awake : Bool
  zombie : Bool
deriving DecidableEq, Repr

/-- `AtomicBitflags::empty`. -/
def ThreadAttributes.empty : ThreadAttributes :=
  { queued := false, asleep := false, awake := false, zombie := false }

/-- `AtomicBitflags::contains`. -/
def ThreadAttributes.contains (a : ThreadAttributes) : ThreadAttr → Bool
  | .queued => a.queued
  | .asleep => a.asleep
  | .awake => a.awake
  | .zombie => a.zombie

/-- `AtomicBitflags::insert`. -/
def ThreadAttributes.insert (a : ThreadAttributes) : ThreadAttr → ThreadAttributes
  | .queued => { a with queued := true }
  | .asleep => { a with asleep := true }
  | .awake => { a with awake := true }
  | .zombie => { a with zombie := true }

/-- `AtomicBitflags::remove`. -/
def ThreadAttributes.remove (a : ThreadAttributes) : ThreadAttr → ThreadAttributes
  | .queued => { a with queued := false }
  | .asleep => { a with asleep := false }
  | .awake => { a with awake := false }
  | .zombie => { a with zombie := false }

/-- `AtomicBitflags::test_and_set`: whether the flag was already set, and the
bitset with the flag set. -/
def ThreadAttributes.testAndSet (a : ThreadAttributes) (f : ThreadAttr) :
    Bool × ThreadAttributes :=
  (a.contains f, a.insert f)

/-- `AtomicBitflags::test_and_clear`: whether the flag was set, and the
bitset with the flag cleared. -/
def ThreadAttributes.testAndClear (a : ThreadAttributes) (f : ThreadAttr) :
    Bool × ThreadAttributes :=
  (a.contains f, a.remove f)

/-- Thread control block (`struct RawThread`).  The architectural context
buffer, the owned stack and the fixed-capacity name array are opaque to the
scheduling logic and omitted; handles are the non-zero `usize` values inside
`ThreadHandle`. -/
structure RawThread where
  pid : Nat
  handle : Nat
  attrs : ThreadAttributes
  priority : Priority
  quantum : Quantum
deriving DecidableEq, Repr

/-- The scheduling-relevant part of `RawThread::new`: empty attribute bits
and `quantum: Quantum::from(priority)`. -/
def RawThread.new (pid : Nat) (priority : Priority) (handle : Nat) : RawThread :=
  { pid := pid, handle := handle, attrs := ThreadAttributes.empty,
    priority := priority, quantum := Quantum.ofPriority priority }

/-- Run queue of thread handles (`struct ThreadQueue`): a growable vector
created with a configured initial capacity. -/
structure ThreadQueue where
  capacity : Nat
  vec : List Nat
deriving DecidableEq, Repr

/-- `ThreadQueue::with_capacity`. -/
def ThreadQueue.withCapacity (capacity : Nat) : ThreadQueue :=
  { capacity := capacity, vec := [] }

/-- `ThreadQueue::dequeue`: pop the front (oldest) handle, if any. -/
def ThreadQueue.dequeue (q : ThreadQueue) : Option Nat × ThreadQueue :=
  match q.vec with
  | [] => (none, q)
  | x :: xs => (some x, { q with vec := xs })

/-- `ThreadQueue::enqueue`: `self.vec.push(data.0); Ok(())` — an
unconditional append that always returns `Ok`; nothing checks the configured
capacity (the `Vec` reallocates and grows past it). -/
def ThreadQueue.enqueue (q : ThreadQueue) (data : Nat) : ThreadQueue × Except Unit Unit :=
  ({ q with vec := q.vec ++ [data] }, Except.ok ())

/-- Thread registry (`struct ThreadPool`): the exclusively owning map from
handle to control block (a `BTreeMap` in the source), modelled as a partial
function. -/
def ThreadPool := Nat → Option RawThread

/-- `ThreadPool::add`: insert a freshly constructed control block under its
handle. -/
def ThreadPool.add (p : ThreadPool) (t : RawThread) : ThreadPool :=
  fun h => if h = t.handle then some t else p h

/-- `ThreadPool::drop_thread`: remove (and thereby destroy) a control
block. -/
def ThreadPool.dropThread (p : ThreadPool) (handle : Nat) : ThreadPool :=
  fun h => if h = handle then none else p h

/-- The scheduler state (`struct Scheduler`).  `retired` is the deferred
retirement slot.  `nextHandle` and `nextPid` model the monotonic counters
behind `ThreadHandle::next` and `ProcessId::raise`.  The timer fields are
modelled separately (`scheduleTimer` / `drainTimers` below). -/
structure SchedState where
  urgent : ThreadQueue
  ready : ThreadQueue
  pool : ThreadPool
  idle : Nat
  current : Nat
  retired : Option Nat
  nextHandle : Nat
  nextPid : Nat

/-- Overwrite the attribute bitset of the thread registered under `handle`:
the effect of mutating `thread.attrs` through the registry
(`ThreadHandle::update` / `as_ref`). -/
def SchedState.setAttr (s : SchedState) (handle : Nat) (a : ThreadAttributes) : SchedState :=
  { s with
    pool := fun h =>
      if h = handle then (s.pool h).map (fun t => { t with attrs := a }) else s.pool h }

/-- `Scheduler::next`: dequeue from `urgent`; if that is empty, dequeue from
`ready`; if both are empty, `none`. -/
def SchedState.nextThread (s : SchedState) : Option Nat × SchedState :=
  match s.urgent.dequeue with
  | (some n, q) => (some n, { s with urgent := q })
  | (none, _) =>
    match s.ready.dequeue with
    | (some n, q) => (some n, { s with ready := q })
    | (none, _) => (none, s)

/-- `Scheduler::retire`: post-switch bookkeeping for the thread switched away
from.  `handle.as_ref()` resolves through the registry and panics on a stale
handle; the panic is modelled as `none`.  The `enqueue(handle).unwrap()`
calls never panic since `ThreadQueue::enqueue` always returns `Ok`. -/
def SchedState.retire (s : SchedState) (handle : Nat) : Option SchedState :=
  match s.pool handle with
  | none => none
  | some thread =>
    if thread.priority = Priority.idle then
      some s
    else if thread.attrs.contains ThreadAttr.zombie then
      some { s with pool := s.pool.dropThread handle }
    else
      match thread.attrs.testAndClear ThreadAttr.awake with
      | (true, a) =>
        let s1 := s.setAttr handle (a.remove ThreadAttr.asleep)
        some { s1 with ready := (s1.ready.enqueue handle).1 }
      | (false, _) =>
        if thread.attrs.contains ThreadAttr.asleep then
          some (s.setAttr handle (thread.attrs.remove ThreadAttr.queued))
        else
          some { s with ready := (s.ready.enqueue handle).1 }

/-- `Scheduler::add`: enqueue a thread to `ready` unless it is of `Idle`
priority, a zombie, or already `QUEUED`; a latched `AWAKE` is consumed,
also clearing `ASLEEP`. -/
def SchedState.add (s : SchedState) (handle : Nat) : Option SchedState :=
  match s.pool handle with
  | none => none
  | some thread =>
    if thread.priority = Priority.idle ∨ thread.attrs.contains ThreadAttr.zombie then
      some s
    else
      match thread.attrs.testAndSet ThreadAttr.queued with
      | (true, _) => some s
      | (false, a1) =>
        let a2 :=
          match a1.testAndClear ThreadAttr.awake with
          | (true, a) => a.remove ThreadAttr.asleep
          | (false, a) => a
        let s1 := s.setAttr handle a2
        some { s1 with ready := (s1.ready.enqueue handle).1 }

/-- `Scheduler::switch_context`: select the next thread (falling back to the
idle thread) and, if it differs from the current one, switch.  The code after
`Cpu::switch_context` physically runs when a later switch resumes this
thread, but its net effect on scheduler state — clearing `AWAKE`/`ASLEEP` on
the newly current thread and performing the deferred retirement of the
previously running one (`sch_setup_new_thread` performs the same deferred
retirement when a thread starts for the first time) — belongs to this atomic
switch event and is modelled here. -/
def SchedState.switchContext (s : SchedState) : Option SchedState :=
  let current := s.current
  match s.nextThread with
  | (n, s1) =>
    let nxt := n.getD s1.idle
    if current = nxt then some s1
    else
      let s2 := { s1 with retired := some current, current := nxt }
      match s2.pool s2.current with
      | none => none
      | some t =>
        let s3 :=
          s2.setAttr s2.current ((t.attrs.remove ThreadAttr.awake).remove ThreadAttr.asleep)
        match s3.retired with
        | none => none
        | some r => SchedState.retire { s3 with retired := none } r

/-- `Scheduler::sleep`: the current thread sets `ASLEEP` on itself and
invokes the context-switch protocol. -/
def SchedState.sleep (s : SchedState) : Option SchedState :=
  match s.pool s.current with
  | none => none
  | some t => (s.setAttr s.current (t.attrs.insert ThreadAttr.asleep)).switchContext

/-- `Scheduler::yield_thread`. -/
def SchedState.yieldThread (s : SchedState) : Option SchedState :=
  s.switchContext

/-- `ThreadHandle::wake`: latch `AWAKE`, then `Scheduler::add`. -/
def SchedState.wake (s : SchedState) (handle : Nat) : Option SchedState :=
  match s.pool handle with
  | none => none
  | some t => (s.setAttr handle (t.attrs.insert ThreadAttr.awake)).add handle

/-- `Scheduler::spawn_f`: pick the process id (a fresh one when `raise_pid`,
otherwise the current thread's, with `ProcessId(0)` as the fallback), build
the control block with `RawThread::new` under the next fresh handle, insert
it into the registry, then `Scheduler::add` it. -/
def SchedState.spawnF (s : SchedState) (priority : Priority) (raisePid : Bool) :
    Option SchedState :=
  let pid := if raisePid then s.nextPid else ((s.pool s.current).map RawThread.pid).getD 0
  let s1 := if raisePid then { s with nextPid := s.nextPid + 1 } else s
  let handle := s1.nextHandle
  let t := RawThread.new pid priority handle
  let s2 := { s1 with nextHandle := s1.nextHandle + 1, pool := s1.pool.add t }
  s2.add handle

/-- The scheduler operations the invariant claims quantify over. -/
inductive Op
  | spawn (priority : Priority) (raisePid : Bool)
  | wake (handle : Nat)
  | sleep
  | yieldThread
deriving DecidableEq, Repr

/-- One atomic scheduler operation. -/
def SchedState.step (s : SchedState) : Op → Option SchedState
  | .spawn p r => s.spawnF p r
  | .wake h => s.wake h
  | .sleep => s.sleep
  | .yieldThread => s.yieldThread

/-- Run a sequence of operations; `none` as soon as one panics. -/
def SchedState.run (s : SchedState) : List Op → Option SchedState
  | [] => some s
  | op :: ops =>
    match s.step op with
    | none => none
    | some s1 => s1.run ops

/-- The scheduler state built by `Scheduler::start` just before it spawns the
first real thread: the registry holds only the bootstrap idle thread
(priority `Idle`, `ProcessId(0)`, no entry point), both queues are empty
(with the configured capacities 100 and 250) and the idle thread is
current. -/
def initState : SchedState :=
  { urgent := ThreadQueue.withCapacity 100
    ready := ThreadQueue.withCapacity 250
    pool := ThreadPool.add (fun _ => none) (RawThread.new 0 Priority.idle 1)
    idle := 1
    current := 1
    retired := none
    nextHandle := 2
    nextPid := 1 }

/-- The handle the context-switch path will actually run next:
`Self::next().unwrap_or(shared.idle)`. -/
def SchedState.selectedNext (s : SchedState) : Nat :=
  s.nextThread.1.getD s.idle

/-- Reachability invariant of the scheduler state machine, preserved by every
operation (established below).  It pins down: the idle thread is live, of
`Idle` priority and never `QUEUED`; the current slot resolves; a non-idle
current thread keeps its `QUEUED` bit while running (dequeueing does not
clear it); every handle in a run queue is live, non-idle, `QUEUED`, not
`ASLEEP` and not a zombie; no live thread is `QUEUED` and `ASLEEP` at once;
no live thread is a zombie (exit is the only producer of zombies and is not
among these operations); the current thread is in neither queue; the queues
are duplicate-free; handles at or above the allocation counter are unused;
and no deferred retirement is pending between operations. -/
structure Inv (s : SchedState) : Prop where
  idle_thread : ∃ t, s.pool s.idle = some t ∧ t.priority = Priority.idle ∧
    t.attrs.queued = false
  current_live : ∃ t, s.pool s.current = some t
  current_queued : ∀ t, s.pool s.current = some t → t.priority ≠ Priority.idle →
    t.attrs.queued = true
  current_idle : ∀ t, s.pool s.current = some t → t.priority = Priority.idle →
    s.current = s.idle
  queues_live : ∀ h, h ∈ s.urgent.vec ++ s.ready.vec →
    ∃ t, s.pool h = some t ∧ t.priority ≠ Priority.idle ∧ t.attrs.queued = true ∧
      t.attrs.asleep = false ∧ t.attrs.zombie = false
  no_qa : ∀ h t, s.pool h = some t → t.attrs.queued = true → t.attrs.asleep = false
  no_zombie : ∀ h t, s.pool h = some t → t.attrs.zombie = false
  current_notin : s.current ∉ s.urgent.vec ∧ s.current ∉ s.ready.vec
  nodup : (s.urgent.vec ++ s.ready.vec).Nodup
  fresh : ∀ h, s.nextHandle ≤ h → s.pool h = none
  retired_none : s.retired = none

/-- Precondition of `switchContext`: the full invariant, except that the
current thread may transiently hold `QUEUED` and `ASLEEP` at once — exactly
the state `Scheduler::sleep` creates between marking the running thread
`ASLEEP` and its deferred retirement inside the same interrupt-masked
switch. -/
structure InvPre (s : SchedState) : Prop where
  idle_thread : ∃ t, s.pool s.idle = some t ∧ t.priority = Priority.idle ∧
    t.attrs.queued = false
  current_live : ∃ t, s.pool s.current = some t
  current_queued : ∀ t, s.pool s.current = some t → t.priority ≠ Priority.idle →
    t.attrs.queued = true
  current_idle : ∀ t, s.pool s.current = some t → t.priority = Priority.idle →
    s.current = s.idle
  queues_live : ∀ h, h ∈ s.urgent.vec ++ s.ready.vec →
    ∃ t, s.pool h = some t ∧ t.priority ≠ Priority.idle ∧ t.attrs.queued = true ∧
      t.attrs.asleep = false ∧ t.attrs.zombie = false
  no_qa_except : ∀ h t, s.pool h = some t → h ≠ s.current → t.attrs.queued = true →
    t.attrs.asleep = false
  no_zombie : ∀ h t, s.pool h = some t → t.attrs.zombie = false
  current_notin : s.current ∉ s.urgent.vec ∧ s.current ∉ s.ready.vec
  nodup : (s.urgent.vec ++ s.ready.vec).Nodup
  fresh : ∀ h, s.nextHandle ≤ h → s.pool h = none
  retired_none : s.retired = none

/-- Precondition under which enqueueing the distinguished handle `r` to
`ready` (after suitable attribute surgery) restores the full invariant: the
state `u` satisfies everything `Inv` requires except that `r` itself may
still carry a transient `QUEUED`/`ASLEEP` overlap; `r` sits in neither run
queue and is not the current thread. -/
structure EnqueuePre (u : SchedState) (r : Nat) : Prop where
  idle_thread : ∃ t, u.pool u.idle = some t ∧ t.priority = Priority.idle ∧
    t.attrs.queued = false
  current_live : ∃ t, u.pool u.current = some t
  current_queued : ∀ t, u.pool u.current = some t → t.priority ≠ Priority.idle →
    t.attrs.queued = true
  current_idle : ∀ t, u.pool u.current = some t → t.priority = Priority.idle →
    u.current = u.idle
  queues_live : ∀ h, h ∈ u.urgent.vec ++ u.ready.vec →
    ∃ t, u.pool h = some t ∧ t.priority ≠ Priority.idle ∧ t.attrs.queued = true ∧
      t.attrs.asleep = false ∧ t.attrs.zombie = false
  no_qa_except : ∀ h t, u.pool h = some t → h ≠ r → t.attrs.queued = true →
    t.attrs.asleep = false
  no_zombie : ∀ h t, u.pool h = some t → t.attrs.zombie = false
  current_notin : u.current ∉ u.urgent.vec ∧ u.current ∉ u.ready.vec
  nodup : (u.urgent.vec ++ u.ready.vec).Nodup
  fresh : ∀ h, u.nextHandle ≤ h → u.pool h = none
  retired_none : u.retired = none
  r_notin : r ∉ u.urgent.vec ∧ r ∉ u.ready.vec
  r_ne_current : r ≠ u.current

/-- Precondition under which the deferred retirement of handle `r` restores
the full invariant: the post-switch state `u` (new current installed, its
`AWAKE`/`ASLEEP` cleared, `retired` slot taken) satisfies the enqueue
precondition, and the retired thread `r` is live, keeps `QUEUED` while of
useful priority, and is the bootstrap idle thread when of `Idle`
priority. -/
structure RetirePre (u : SchedState) (r : Nat) extends EnqueuePre u r : Prop where
  r_live : ∃ t, u.pool r = some t
  r_queued : ∀ t, u.pool r = some t → t.priority ≠ Priority.idle → t.attrs.queued = true
  r_idle : ∀ t, u.pool r = some t → t.priority = Priority.idle → r = u.idle

/-- The process-wide cells `SCHEDULER` and `SCHEDULER_ENABLED`. -/
structure KernelState where
  scheduler : Option SchedState
  schedulerEnabled : Bool

/-- `Scheduler::is_enabled`: the `SCHEDULER` cell is populated and the
enabled flag is set. -/
def KernelState.isEnabled (k : KernelState) : Bool :=
  k.scheduler.isSome && k.schedulerEnabled

/-- `Scheduler::current_thread`: `None` unless the scheduler is enabled,
otherwise the handle in the current slot.  (`Scheduler::shared` unwraps the
`SCHEDULER` cell; the `is_enabled` guard implies the cell is populated, so
the unwrap is rendered by `Option.map`.) -/
def KernelState.currentThread (k : KernelState) : Option Nat :=
  if k.isEnabled then k.scheduler.map SchedState.current else none

/-- `Scheduler::current_pid`: `None` unless enabled, otherwise the process id
of the current thread, resolved through the registry (`as_ref` panics on a
stale handle; the panic is modelled as `none`). -/
def KernelState.currentPid (k : KernelState) : Option Nat :=
  if k.isEnabled then
    k.currentThread.bind fun h => (k.scheduler.bind fun s => s.pool h).map RawThread.pid
  else none

/-- Timer payload (`enum TimerType`): wake a specific thread, or notify the
window collaborator with a timer id. -/
inductive TimerType
  | oneShot (thread : Nat)
  | window (window : Nat) (timerId : Nat)
deriving DecidableEq, Repr

/-- A pending timer event (`struct TimerEvent`): the `u64` deadline of its
`Timer` (`0` is the distinguished `Timer::JUST` sentinel, never in the
future) plus the payload. -/
structure TimerEvent where
  deadline : Nat
  timerType : TimerType
deriving DecidableEq, Repr

/-- `TimerEvent::until` via `Timer::until` at monotonic instant `now`: `true`
when the deadline has not yet elapsed.  Modelled from the spec for the
injected time source: `until(deadline)` is true if the deadline is not yet
elapsed, and the `JUST` sentinel is always already elapsed. -/
def TimerEvent.until (e : TimerEvent) (now : Nat) : Bool :=
  if e.deadline = 0 then false else now < e.deadline

/-- `TimerEvent::fire`: a `OneShot` event wakes its thread — the result
carries the woken handle.  The `Window` arm of the `match` is `todo!()` in
the source (its `window.post(WindowMessage::Timer(timer_id))` call is
commented out), so firing a `Window` event panics, modelled by `none`. -/
def TimerEvent.fire (e : TimerEvent) : Option Nat :=
  match e.timerType with
  | TimerType.oneShot thread => some thread
  | TimerType.window _ _ => none

/-- The comparator of `schedule_timer`:
`sort_by(|a, b| a.timer.deadline.cmp(&b.timer.deadline))`. -/
def timerLe (a b : TimerEvent) : Bool := a.deadline ≤ b.deadline

/-- The list part of `Scheduler::schedule_timer`: push the new event, then
re-sort by deadline.  `Vec::sort_by` is a stable sort, rendered by the
(equally stable) `List.mergeSort`. -/
def scheduleTimer (l : List TimerEvent) (e : TimerEvent) : List TimerEvent :=
  (l ++ [e]).mergeSort timerLe

/-- The pending list obtained by scheduling the given events in order into an
initially empty list. -/
def timerList (es : List TimerEvent) : List TimerEvent :=
  es.foldl scheduleTimer []

/-- The drain loop of `process_timer_event`: repeatedly remove the front
event while its deadline has elapsed and fire it
(`shared.timer_events.remove(0).fire()`).  Firing a `OneShot` wakes its
thread; firing a `Window` event hits the `todo!()` in `TimerEvent::fire`
and panics, which aborts the drain — `none` models that panic, and no later
event fires.  On normal completion the result carries the fired events in
firing order together with the remaining pending list. -/
def drainTimers (now : Nat) : List TimerEvent → Option (List TimerEvent × List TimerEvent)
  | [] => some ([], [])
  | e :: rest =>
    if e.until now then some ([], e :: rest)
    else
      match e.fire with
      | none => none
      | some _ =>
        match drainTimers now rest with
        | none => none
        | some (fired, remaining) => some (e :: fired, remaining)

/-- Outcome of the tail of `RawThread::exit`. -/
inductive ExitOutcome
  | contextSwitched
  | unreachablePanic
deriving DecidableEq, Repr

/-- `RawThread::exit`: after the two-second grace delay
(`Timer::sleep(Duration::from_secs(2))`, which parks and later resumes the
thread), the thread inserts `ZOMBIE` — and then, because the final
`MyScheduler::sleep()` call is commented out in the source, control reaches
`unreachable!()`, which panics.  The outcome records which of the two tail
behaviours happens. -/
def RawThread.exit (t : RawThread) : RawThread × ExitOutcome :=
  ({ t with attrs := t.attrs.insert ThreadAttr.zombie }, ExitOutcome.unreachablePanic)

/-! Theorems.  Small observation lemmas about the embedded operations come
first, then the claim theorems with their witnesses. -/

@[simp]
theorem SchedState.setAttr_pool (s : SchedState) (handle : Nat) (a : ThreadAttributes)
    (h : Nat) :
    (s.setAttr handle a).pool h =
      if h = handle then (s.pool h).map (fun t => { t with attrs := a }) else s.pool h :=
  rfl

@[simp]
theorem SchedState.setAttr_urgent (s : SchedState) (handle : Nat) (a : ThreadAttributes) :
    (s.setAttr handle a).urgent = s.urgent := rfl

@[simp]
theorem SchedState.setAttr_ready (s : SchedState) (handle : Nat) (a : ThreadAttributes) :
    (s.setAttr handle a).ready = s.ready := rfl

@[simp]
theorem SchedState.setAttr_current (s : SchedState) (handle : Nat) (a : ThreadAttributes) :
    (s.setAttr handle a).current = s.current := rfl

@[simp]
theorem SchedState.setAttr_idle (s : SchedState) (handle : Nat) (a : ThreadAttributes) :
    (s.setAttr handle a).idle = s.idle := rfl

@[simp]
theorem SchedState.setAttr_retired (s : SchedState) (handle : Nat) (a : ThreadAttributes) :
    (s.setAttr handle a).retired = s.retired := rfl

@[simp]
theorem SchedState.setAttr_nextHandle (s : SchedState) (handle : Nat) (a : ThreadAttributes) :
    (s.setAttr handle a).nextHandle = s.nextHandle := rfl

@[simp]
theorem ThreadQueue.enqueue_fst (q : ThreadQueue) (d : Nat) :
    (q.enqueue d).1 = { q with vec := q.vec ++ [d] } := rfl

@[simp]
theorem ThreadQueue.enqueue_snd (q : ThreadQueue) (d : Nat) :
    (q.enqueue d).2 = Except.ok () := rfl

theorem nodup_append_singleton {l : List Nat} {x : Nat} (hl : l.Nodup) (hx : x ∉ l) :
    (l ++ [x]).Nodup := by
  simp [List.nodup_append, hl, hx, List.disjoint_left]

/-- Every `Inv` state satisfies the weaker switch precondition. -/
theorem Inv.toPre {s : SchedState} (hs : Inv s) : InvPre s :=
  ⟨hs.idle_thread, hs.current_live, hs.current_queued, hs.current_idle, hs.queues_live,
    fun h t hpt _ hq => hs.no_qa h t hpt hq, hs.no_zombie, hs.current_notin, hs.nodup,
    hs.fresh, hs.retired_none⟩

/-- `InvPre` plus exclusion at the current thread yields the full
invariant. -/
theorem Inv.ofPre {s : SchedState} (hp : InvPre s)
    (hcur : ∀ t, s.pool s.current = some t → t.attrs.queued = true →
      t.attrs.asleep = false) : Inv s :=
  ⟨hp.idle_thread, hp.current_live, hp.current_queued, hp.current_idle, hp.queues_live,
    fun h t hpt hq => by
      by_cases hc : h = s.current
      · subst hc; exact hcur t hpt hq
      · exact hp.no_qa_except h t hpt hc hq,
    hp.no_zombie, hp.current_notin, hp.nodup, hp.fresh, hp.retired_none⟩

/-- The idle thread is in neither run queue. -/
theorem InvPre.idle_notin {s : SchedState} (hp : InvPre s) :
    s.idle ∉ s.urgent.vec ∧ s.idle ∉ s.ready.vec := by
  obtain ⟨ti, hti, hpi, _⟩ := hp.idle_thread
  constructor
  · intro hmem
    obtain ⟨t, hpt, hni, _⟩ := hp.queues_live s.idle (List.mem_append.mpr (Or.inl hmem))
    rw [hti] at hpt; cases hpt; exact hni hpi
  · intro hmem
    obtain ⟨t, hpt, hni, _⟩ := hp.queues_live s.idle (List.mem_append.mpr (Or.inr hmem))
    rw [hti] at hpt; cases hpt; exact hni hpi

/-- Live handles sit below the allocation counter. -/
theorem InvPre.live_lt {s : SchedState} (hp : InvPre s) {h : Nat} {t : RawThread}
    (hpt : s.pool h = some t) : h < s.nextHandle := by
  by_contra hge
  rw [hp.fresh h (by omega)] at hpt
  cases hpt

/-- The bootstrap state satisfies the invariant. -/
theorem inv_init : Inv initState := by
  have hpool : ∀ h, initState.pool h =
      if h = 1 then some (RawThread.new 0 Priority.idle 1) else none := fun _ => rfl
  refine ⟨⟨RawThread.new 0 Priority.idle 1, rfl, rfl, rfl⟩,
    ⟨RawThread.new 0 Priority.idle 1, rfl⟩, ?_, ?_, ?_, ?_, ?_, ?_, ?_, ?_, rfl⟩
  · intro t hpt hni
    rw [hpool] at hpt
    simp at hpt
    obtain ⟨-, hpt⟩ := hpt
    subst hpt
    exact absurd rfl hni
  · intro t _ _
    rfl
  · intro h hmem
    simp [initState, ThreadQueue.withCapacity] at hmem
  · intro h t hpt hq
    rw [hpool] at hpt
    by_cases h1 : h = 1
    · subst h1
      simp at hpt
      subst hpt
      exact absurd hq (by simp [RawThread.new, ThreadAttributes.empty])
    · simp [h1] at hpt
  · intro h t hpt
    rw [hpool] at hpt
    by_cases h1 : h = 1
    · subst h1
      simp at hpt
      subst hpt
      rfl
    · simp [h1] at hpt
  · exact ⟨by simp [initState, ThreadQueue.withCapacity], by
      simp [initState, ThreadQueue.withCapacity]⟩
  · simp [initState, ThreadQueue.withCapacity]
  · intro h hge
    rw [hpool]
    have : ¬ h = 1 := by
      simp [initState] at hge
      omega
    simp [this]

/-- Exhaustive description of `Scheduler::next`. -/
theorem nextThread_spec (s : SchedState) :
    (s.urgent.vec = [] ∧ s.ready.vec = [] ∧ s.nextThread = (none, s)) ∨
    (∃ x xs, s.urgent.vec = x :: xs ∧
      s.nextThread = (some x, { s with urgent := { s.urgent with vec := xs } })) ∨
    (∃ x xs, s.urgent.vec = [] ∧ s.ready.vec = x :: xs ∧
      s.nextThread = (some x, { s with ready := { s.ready with vec := xs } })) := by
  rcases hu : s.urgent.vec with _ | ⟨x, xs⟩
  · rcases hr : s.ready.vec with _ | ⟨y, ys⟩
    · exact Or.inl ⟨rfl, rfl, by simp [SchedState.nextThread, ThreadQueue.dequeue, hu, hr]⟩
    · refine Or.inr (Or.inr ⟨y, ys, rfl, rfl, ?_⟩)
      simp [SchedState.nextThread, ThreadQueue.dequeue, hu, hr]
  · refine Or.inr (Or.inl ⟨x, xs, rfl, ?_⟩)
    simp [SchedState.nextThread, ThreadQueue.dequeue, hu]

/-- Replacing a thread's bitset by itself is the identity surgery. -/
theorem setAttr_self {u : SchedState} {r : Nat} {t : RawThread} (hpt : u.pool r = some t) :
    u.setAttr r t.attrs = u := by
  obtain ⟨uq, urd, up, ui, uc, urt, unh, unp⟩ := u
  simp only [SchedState.setAttr]
  congr 1
  funext h2
  by_cases h2r : h2 = r
  · subst h2r
    simp only [if_pos rfl]
    simp only at hpt
    rw [hpt]
    rfl
  · simp [h2r]

/-- Enqueueing the thread `r` to `ready` with a bitset marking it queued, not
asleep and not a zombie restores the full invariant from the retirement
precondition. -/
theorem enqueue_ready_inv {u : SchedState} {r : Nat} (hp : EnqueuePre u r) {t : RawThread}
    (hpt : u.pool r = some t) (hni : t.priority ≠ Priority.idle) (a : ThreadAttributes)
    (haq : a.queued = true) (has : a.asleep = false) (haz : a.zombie = false) :
    Inv { u.setAttr r a with ready := { u.ready with vec := u.ready.vec ++ [r] } } := by
  have hne_idle : r ≠ u.idle := by
    intro hri
    obtain ⟨ti, hti, hpi, _⟩ := hp.idle_thread
    rw [hri, hti] at hpt
    cases hpt
    exact hni hpi
  have hrlt : r < u.nextHandle := by
    by_contra hge
    rw [hp.fresh r (by omega)] at hpt
    cases hpt
  have hnc : r ≠ u.current := hp.r_ne_current
  refine ⟨?_, ?_, ?_, ?_, ?_, ?_, ?_, ?_, ?_, ?_, ?_⟩
  · obtain ⟨ti, hti, hpi, hqi⟩ := hp.idle_thread
    exact ⟨ti, by simp [Ne.symm hne_idle, hti], hpi, hqi⟩
  · obtain ⟨tc, htc⟩ := hp.current_live
    exact ⟨tc, by simp [Ne.symm hnc, htc]⟩
  · intro t2 hpt2 hni2
    simp [Ne.symm hnc] at hpt2
    exact hp.current_queued t2 hpt2 hni2
  · intro t2 hpt2 hpi2
    simp [Ne.symm hnc] at hpt2
    exact hp.current_idle t2 hpt2 hpi2
  · intro h2 hmem
    simp only [List.mem_append, List.mem_singleton] at hmem
    rcases hmem with hmem | hmem | hmem
    · have hne : h2 ≠ r := fun hh => hp.r_notin.1 (hh ▸ hmem)
      obtain ⟨t2, hpt2, hx⟩ := hp.queues_live h2 (List.mem_append.mpr (Or.inl hmem))
      exact ⟨t2, by simp [hne, hpt2], hx⟩
    · have hne : h2 ≠ r := fun hh => hp.r_notin.2 (hh ▸ hmem)
      obtain ⟨t2, hpt2, hx⟩ := hp.queues_live h2 (List.mem_append.mpr (Or.inr hmem))
      exact ⟨t2, by simp [hne, hpt2], hx⟩
    · subst hmem
      exact ⟨{ t with attrs := a }, by simp [hpt], hni, haq, has, haz⟩
  · intro h2 t2 hpt2 hq2
    by_cases h2r : h2 = r
    · subst h2r
      simp [hpt] at hpt2
      subst hpt2
      exact has
    · simp [h2r] at hpt2
      exact hp.no_qa_except h2 t2 hpt2 h2r hq2
  · intro h2 t2 hpt2
    by_cases h2r : h2 = r
    · subst h2r
      simp [hpt] at hpt2
      subst hpt2
      exact haz
    · simp [h2r] at hpt2
      exact hp.no_zombie h2 t2 hpt2
  · refine ⟨hp.current_notin.1, ?_⟩
    simp only [List.mem_append, List.mem_singleton]
    rintro (hmem | hmem)
    · exact hp.current_notin.2 hmem
    · exact hnc hmem.symm
  · rw [← List.append_assoc]
    exact nodup_append_singleton hp.nodup (by
      simp only [List.mem_append]
      rintro (hmem | hmem)
      · exact hp.r_notin.1 hmem
      · exact hp.r_notin.2 hmem)
  · intro h2 hge
    have hge2 : u.nextHandle ≤ h2 := hge
    have h2r : ¬ h2 = r := by omega
    simp [h2r]
    exact hp.fresh h2 hge2
  · exact hp.retired_none

/-- The deferred retirement restores the full invariant. -/
theorem retire_inv {u : SchedState} {r : Nat} (hp : RetirePre u r) {s' : SchedState}
    (he : u.retire r = some s') : Inv s' := by
  obtain ⟨t, hpt⟩ := hp.r_live
  by_cases hidle : t.priority = Priority.idle
  · have hs' : s' = u := by
      rw [SchedState.retire, hpt] at he
      simp [hidle] at he
      exact he.symm
    subst hs'
    refine ⟨hp.idle_thread, hp.current_live, hp.current_queued, hp.current_idle,
      hp.queues_live, ?_, hp.no_zombie, hp.current_notin, hp.nodup, hp.fresh,
      hp.retired_none⟩
    intro h2 t2 hpt2 hq2
    by_cases h2r : h2 = r
    · subst h2r
      have hri := hp.r_idle t hpt hidle
      obtain ⟨ti, hti, hpi, hqi⟩ := hp.idle_thread
      rw [hri, hti] at hpt2
      cases hpt2
      rw [hri, hti] at hpt
      exact absurd hq2 (by simp [hqi])
    · exact hp.no_qa_except h2 t2 hpt2 h2r hq2
  · have hz := hp.no_zombie r t hpt
    by_cases hw : t.attrs.awake = true
    · have hs' : s' = { u.setAttr r ((t.attrs.remove ThreadAttr.awake).remove ThreadAttr.asleep)
          with ready := { u.ready with vec := u.ready.vec ++ [r] } } := by
        rw [SchedState.retire, hpt] at he
        simp [hidle, ThreadAttributes.contains, hz, ThreadAttributes.testAndClear, hw] at he
        exact he.symm
      subst hs'
      refine enqueue_ready_inv hp.toEnqueuePre hpt hidle _ ?_ rfl ?_
      · simp [ThreadAttributes.remove]
        exact hp.r_queued t hpt hidle
      · simp [ThreadAttributes.remove, hz]
    · by_cases hsl : t.attrs.asleep = true
      · have hs' : s' = u.setAttr r (t.attrs.remove ThreadAttr.queued) := by
          rw [SchedState.retire, hpt] at he
          simp [hidle, ThreadAttributes.contains, hz, ThreadAttributes.testAndClear, hw,
            hsl] at he
          exact he.symm
        subst hs'
        have hne_idle : r ≠ u.idle := by
          intro hri
          obtain ⟨ti, hti, hpi, _⟩ := hp.idle_thread
          rw [hri, hti] at hpt
          cases hpt
          exact hidle hpi
        have hnc : r ≠ u.current := hp.r_ne_current
        refine ⟨?_, ?_, ?_, ?_, ?_, ?_, ?_, ?_, ?_, ?_, ?_⟩
        · obtain ⟨ti, hti, hpi, hqi⟩ := hp.idle_thread
          exact ⟨ti, by simp [Ne.symm hne_idle, hti], hpi, hqi⟩
        · obtain ⟨tc, htc⟩ := hp.current_live
          exact ⟨tc, by simp [Ne.symm hnc, htc]⟩
        · intro t2 hpt2 hni2
          simp [Ne.symm hnc] at hpt2
          exact hp.current_queued t2 hpt2 hni2
        · intro t2 hpt2 hpi2
          simp [Ne.symm hnc] at hpt2
          exact hp.current_idle t2 hpt2 hpi2
        · intro h2 hmem
          simp only [SchedState.setAttr_urgent, SchedState.setAttr_ready] at hmem
          have hne : h2 ≠ r := by
            intro hh
            subst hh
            rcases List.mem_append.mp hmem with hmem2 | hmem2
            · exact hp.r_notin.1 hmem2
            · exact hp.r_notin.2 hmem2
          obtain ⟨t2, hpt2, hx⟩ := hp.queues_live h2 hmem
          exact ⟨t2, by simp [hne, hpt2], hx⟩
        · intro h2 t2 hpt2 hq2
          by_cases h2r : h2 = r
          · subst h2r
            simp [hpt] at hpt2
            subst hpt2
            simp [ThreadAttributes.remove] at hq2
          · simp [h2r] at hpt2
            exact hp.no_qa_except h2 t2 hpt2 h2r hq2
        · intro h2 t2 hpt2
          by_cases h2r : h2 = r
          · subst h2r
            simp [hpt] at hpt2
            subst hpt2
            simp [ThreadAttributes.remove, hz]
          · simp [h2r] at hpt2
            exact hp.no_zombie h2 t2 hpt2
        · exact hp.current_notin
        · exact hp.nodup
        · intro h2 hge
          have hge2 : u.nextHandle ≤ h2 := hge
          have h2r : ¬ h2 = r := by
            have : r < u.nextHandle := by
              by_contra hge3
              rw [hp.fresh r (by omega)] at hpt
              cases hpt
            omega
          simp [h2r]
          exact hp.fresh h2 hge2
        · exact hp.retired_none
      · have hs' : s' = { u with ready := { u.ready with vec := u.ready.vec ++ [r] } } := by
          rw [SchedState.retire, hpt] at he
          simp [hidle, ThreadAttributes.contains, hz, ThreadAttributes.testAndClear, hw,
            hsl] at he
          exact he.symm
        subst hs'
        have hkey := enqueue_ready_inv hp.toEnqueuePre hpt hidle t.attrs
          (hp.r_queued t hpt hidle) (by simp at hsl; exact hsl) hz
        rwa [setAttr_self hpt] at hkey

/-- The context-switch protocol restores the full invariant from the switch
precondition. -/
theorem switch_inv {s : SchedState} (hp : InvPre s) {s' : SchedState}
    (he : s.switchContext = some s') : Inv s' := by
  obtain ⟨tc, htc⟩ := hp.current_live
  obtain ⟨ti, hti, hpi, hqi⟩ := hp.idle_thread
  rcases nextThread_spec s with ⟨hu, hr, hn⟩ | ⟨x, xs, hu, hn⟩ | ⟨x, xs, hu, hr, hn⟩
  · -- both queues empty: fall back to the idle thread
    by_cases hc : s.current = s.idle
    · have hs' : s' = s := by
        rw [SchedState.switchContext, hn] at he
        simp [hc] at he
        exact he.symm
      subst hs'
      refine Inv.ofPre hp ?_
      intro t2 hpt2 hq2
      rw [hc, hti] at hpt2
      cases hpt2
      exact absurd hq2 (by simp [hqi])
    · rw [SchedState.switchContext, hn] at he
      simp only [Option.getD_none] at he
      rw [if_neg hc] at he
      rw [hti] at he
      simp only [SchedState.setAttr_retired] at he
      refine retire_inv ?_ he
      have hlt_idle : s.idle < s.nextHandle := hp.live_lt hti
      have hlt_cur : s.current < s.nextHandle := hp.live_lt htc
      refine ⟨⟨?_, ?_, ?_, ?_, ?_, ?_, ?_, ?_, ?_, ?_, rfl, ?_, ?_⟩, ?_, ?_, ?_⟩
      · exact ⟨{ ti with attrs := (ti.attrs.remove ThreadAttr.awake).remove ThreadAttr.asleep },
          by simp [hti], hpi, hqi⟩
      · exact ⟨{ ti with attrs := (ti.attrs.remove ThreadAttr.awake).remove ThreadAttr.asleep },
          by simp [hti]⟩
      · intro t2 hpt2 hni2
        simp [hti] at hpt2
        subst hpt2
        exact absurd hpi hni2
      · intro t2 _ _
        rfl
      · intro h2 hmem
        simp [hu, hr] at hmem
      · intro h2 t2 hpt2 h2r hq2
        by_cases h2i : h2 = s.idle
        · subst h2i
          simp [hti] at hpt2
          subst hpt2
          simp [ThreadAttributes.remove, hqi] at hq2
        · simp [h2i] at hpt2
          exact hp.no_qa_except h2 t2 hpt2 h2r hq2
      · intro h2 t2 hpt2
        by_cases h2i : h2 = s.idle
        · subst h2i
          simp [hti] at hpt2
          subst hpt2
          simp [ThreadAttributes.remove]
          exact hp.no_zombie s.idle ti hti
        · simp [h2i] at hpt2
          exact hp.no_zombie h2 t2 hpt2
      · exact ⟨by simp [hu], by simp [hr]⟩
      · simp [hu, hr]
      · intro h2 hge
        have hge2 : s.nextHandle ≤ h2 := hge
        have h2i : ¬ h2 = s.idle := by omega
        simp [h2i]
        exact hp.fresh h2 hge2
      · exact ⟨by simp [hu], by simp [hr]⟩
      · exact hc
      · refine ⟨tc, ?_⟩
        have hci : ¬ s.current = s.idle := hc
        simp [hci, htc]
      · intro t2 hpt2 hni2
        have hci : ¬ s.current = s.idle := hc
        simp [hci, htc] at hpt2
        subst hpt2
        exact hp.current_queued tc htc hni2
      · intro t2 hpt2 hpi2
        have hci : ¬ s.current = s.idle := hc
        simp [hci, htc] at hpt2
        subst hpt2
        exact absurd (hp.current_idle tc htc hpi2) hc
  · -- urgent thread available
    have hxmem : x ∈ s.urgent.vec ++ s.ready.vec := by
      rw [hu]; exact List.mem_append.mpr (Or.inl (List.mem_cons_self x xs))
    obtain ⟨tx, hptx, hnix, hqx, hsx, hzx⟩ := hp.queues_live x hxmem
    have hcx : ¬ s.current = x := fun hh => hp.current_notin.1 (by
      rw [hu, hh]; exact List.mem_cons_self x xs)
    have hnodup : (x :: (xs ++ s.ready.vec)).Nodup := by
      have := hp.nodup
      rwa [hu] at this
    have hxnotin : x ∉ xs ++ s.ready.vec := (List.nodup_cons.mp hnodup).1
    have hnodup2 : (xs ++ s.ready.vec).Nodup := (List.nodup_cons.mp hnodup).2
    have hxi : ¬ x = s.idle := by
      intro hh
      rw [hh, hti] at hptx
      cases hptx
      exact hnix hpi
    rw [SchedState.switchContext, hn] at he
    simp only [Option.getD_some] at he
    rw [if_neg hcx] at he
    rw [hptx] at he
    simp only [SchedState.setAttr_retired] at he
    refine retire_inv ?_ he
    have hlt_x : x < s.nextHandle := hp.live_lt hptx
    have hlt_cur : s.current < s.nextHandle := hp.live_lt htc
    refine ⟨⟨?_, ?_, ?_, ?_, ?_, ?_, ?_, ?_, ?_, ?_, rfl, ?_, ?_⟩, ?_, ?_, ?_⟩
    · refine ⟨ti, ?_, hpi, hqi⟩
      have : ¬ s.idle = x := fun hh => hxi hh.symm
      simp [this, hti]
    · exact ⟨{ tx with attrs := (tx.attrs.remove ThreadAttr.awake).remove ThreadAttr.asleep },
        by simp [hptx]⟩
    · intro t2 hpt2 hni2
      simp [hptx] at hpt2
      subst hpt2
      simpa [ThreadAttributes.remove] using hqx
    · intro t2 hpt2 hpi2
      simp [hptx] at hpt2
      subst hpt2
      exact absurd hpi2 (by simpa [ThreadAttributes.remove] using hnix)
    · intro h2 hmem
      simp only [List.mem_append] at hmem
      have hmem2 : h2 ∈ s.urgent.vec ++ s.ready.vec := by
        rw [hu]
        rcases hmem with hmem | hmem
        · exact List.mem_append.mpr (Or.inl (List.mem_cons_of_mem x hmem))
        · exact List.mem_append.mpr (Or.inr hmem)
      have h2x : ¬ h2 = x := by
        intro hh
        subst hh
        rcases hmem with hmem | hmem
        · exact hxnotin (List.mem_append.mpr (Or.inl hmem))
        · exact hxnotin (List.mem_append.mpr (Or.inr hmem))
      obtain ⟨t2, hpt2, hx2⟩ := hp.queues_live h2 hmem2
      exact ⟨t2, by simp [h2x, hpt2], hx2⟩
    · intro h2 t2 hpt2 h2r hq2
      by_cases h2x : h2 = x
      · subst h2x
        simp [hptx] at hpt2
        subst hpt2
        simp [ThreadAttributes.remove]
      · simp [h2x] at hpt2
        exact hp.no_qa_except h2 t2 hpt2 h2r hq2
    · intro h2 t2 hpt2
      by_cases h2x : h2 = x
      · subst h2x
        simp [hptx] at hpt2
        subst hpt2
        simpa [ThreadAttributes.remove] using hzx
      · simp [h2x] at hpt2
        exact hp.no_zombie h2 t2 hpt2
    · constructor
      · intro hmem
        exact hxnotin (List.mem_append.mpr (Or.inl hmem))
      · intro hmem
        exact hxnotin (List.mem_append.mpr (Or.inr hmem))
    · exact hnodup2
    · intro h2 hge
      have hge2 : s.nextHandle ≤ h2 := hge
      have h2x : ¬ h2 = x := by omega
      simp [h2x]
      exact hp.fresh h2 hge2
    · constructor
      · intro hmem
        exact hp.current_notin.1 (by rw [hu]; exact List.mem_cons_of_mem x hmem)
      · exact hp.current_notin.2
    · exact hcx
    · refine ⟨tc, ?_⟩
      simp [hcx, htc]
    · intro t2 hpt2 hni2
      simp [hcx, htc] at hpt2
      subst hpt2
      exact hp.current_queued tc htc hni2
    · intro t2 hpt2 hpi2
      simp [hcx, htc] at hpt2
      subst hpt2
      exact hp.current_idle tc htc hpi2
  · -- ready thread available
    have hxmem : x ∈ s.urgent.vec ++ s.ready.vec := by
      rw [hr]; exact List.mem_append.mpr (Or.inr (List.mem_cons_self x xs))
    obtain ⟨tx, hptx, hnix, hqx, hsx, hzx⟩ := hp.queues_live x hxmem
    have hcx : ¬ s.current = x := fun hh => hp.current_notin.2 (by
      rw [hr, hh]; exact List.mem_cons_self x xs)
    have hnodup : (s.urgent.vec ++ (x :: xs)).Nodup := by
      have := hp.nodup
      rwa [hr] at this
    have hxnotin : x ∉ s.urgent.vec ++ xs := by
      intro hmem
      rcases List.mem_append.mp hmem with hmem | hmem
      · rcases (List.nodup_append.mp hnodup).2.2 with hdisj
        exact hdisj hmem (List.mem_cons_self x xs)
      · exact (List.nodup_cons.mp (List.nodup_append.mp hnodup).2.1).1 hmem
    have hnodup2 : (s.urgent.vec ++ xs).Nodup := by
      rcases List.nodup_append.mp hnodup with ⟨h1, h2, h3⟩
      exact List.nodup_append.mpr ⟨h1, (List.nodup_cons.mp h2).2,
        fun a ha1 ha2 => h3 ha1 (List.mem_cons_of_mem x ha2)⟩
    have hxi : ¬ x = s.idle := by
      intro hh
      rw [hh, hti] at hptx
      cases hptx
      exact hnix hpi
    rw [SchedState.switchContext, hn] at he
    simp only [Option.getD_some] at he
    rw [if_neg hcx] at he
    rw [hptx] at he
    simp only [SchedState.setAttr_retired] at he
    refine retire_inv ?_ he
    have hlt_x : x < s.nextHandle := hp.live_lt hptx
    have hlt_cur : s.current < s.nextHandle := hp.live_lt htc
    refine ⟨⟨?_, ?_, ?_, ?_, ?_, ?_, ?_, ?_, ?_, ?_, rfl, ?_, ?_⟩, ?_, ?_, ?_⟩
    · refine ⟨ti, ?_, hpi, hqi⟩
      have : ¬ s.idle = x := fun hh => hxi hh.symm
      simp [this, hti]
    · exact ⟨{ tx with attrs := (tx.attrs.remove ThreadAttr.awake).remove ThreadAttr.asleep },
        by simp [hptx]⟩
    · intro t2 hpt2 hni2
      simp [hptx] at hpt2
      subst hpt2
      simpa [ThreadAttributes.remove] using hqx
    · intro t2 hpt2 hpi2
      simp [hptx] at hpt2
      subst hpt2
      exact absurd hpi2 (by simpa [ThreadAttributes.remove] using hnix)
    · intro h2 hmem
      simp only [List.mem_append] at hmem
      have hmem2 : h2 ∈ s.urgent.vec ++ s.ready.vec := by
        rw [hr]
        rcases hmem with hmem | hmem
        · exact List.mem_append.mpr (Or.inl hmem)
        · exact List.mem_append.mpr (Or.inr (List.mem_cons_of_mem x hmem))
      have h2x : ¬ h2 = x := by
        intro hh
        subst hh
        rcases hmem with hmem | hmem
        · exact hxnotin (List.mem_append.mpr (Or.inl hmem))
        · exact hxnotin (List.mem_append.mpr (Or.inr hmem))
      obtain ⟨t2, hpt2, hx2⟩ := hp.queues_live h2 hmem2
      exact ⟨t2, by simp [h2x, hpt2], hx2⟩
    · intro h2 t2 hpt2 h2r hq2
      by_cases h2x : h2 = x
      · subst h2x
        simp [hptx] at hpt2
        subst hpt2
        simp [ThreadAttributes.remove]
      · simp [h2x] at hpt2
        exact hp.no_qa_except h2 t2 hpt2 h2r hq2
    · intro h2 t2 hpt2
      by_cases h2x : h2 = x
      · subst h2x
        simp [hptx] at hpt2
        subst hpt2
        simpa [ThreadAttributes.remove] using hzx
      · simp [h2x] at hpt2
        exact hp.no_zombie h2 t2 hpt2
    · constructor
      · intro hmem
        exact hxnotin (List.mem_append.mpr (Or.inl hmem))
      · intro hmem
        exact hxnotin (List.mem_append.mpr (Or.inr hmem))
    · exact hnodup2
    · intro h2 hge
      have hge2 : s.nextHandle ≤ h2 := hge
      have h2x : ¬ h2 = x := by omega
      simp [h2x]
      exact hp.fresh h2 hge2
    · constructor
      · exact hp.current_notin.1
      · intro hmem
        exact hp.current_notin.2 (by rw [hr]; exact List.mem_cons_of_mem x hmem)
    · exact hcx
    · refine ⟨tc, ?_⟩
      simp [hcx, htc]
    · intro t2 hpt2 hni2
      simp [hcx, htc] at hpt2
      subst hpt2
      exact hp.current_queued tc htc hni2
    · intro t2 hpt2 hpi2
      simp [hcx, htc] at hpt2
      subst hpt2
      exact hp.current_idle tc htc hpi2

/-- Attribute surgery that keeps `QUEUED`, `ASLEEP` and `ZOMBIE` intact
preserves the invariant (the priority and identity fields are untouched by
construction). -/
theorem inv_setAttr {s : SchedState} (hs : Inv s) {h : Nat} {t : RawThread}
    (hpt : s.pool h = some t) {a : ThreadAttributes}
    (hq : a.queued = t.attrs.queued) (hsl : a.asleep = t.attrs.asleep)
    (hz : a.zombie = t.attrs.zombie) : Inv (s.setAttr h a) := by
  refine ⟨?_, ?_, ?_, ?_, ?_, ?_, ?_, ?_, ?_, ?_, ?_⟩
  · obtain ⟨ti, hti, hpi, hqi⟩ := hs.idle_thread
    by_cases hih : s.idle = h
    · rw [hih, hpt] at hti
      injection hti with hti2
      subst hti2
      refine ⟨{ t with attrs := a }, ?_, hpi, by rw [hq]; exact hqi⟩
      rw [show (s.setAttr h a).idle = s.idle from rfl, hih]
      simp [hpt]
    · exact ⟨ti, by simp [hih, hti], hpi, hqi⟩
  · obtain ⟨tc, htc⟩ := hs.current_live
    by_cases hch : s.current = h
    · refine ⟨{ t with attrs := a }, ?_⟩
      rw [show (s.setAttr h a).current = s.current from rfl, hch]
      simp [hpt]
    · exact ⟨tc, by simp [hch, htc]⟩
  · intro t2 hpt2 hni2
    by_cases hch : s.current = h
    · rw [show (s.setAttr h a).current = s.current from rfl, hch] at hpt2
      simp [hpt] at hpt2
      subst hpt2
      rw [hq]
      refine hs.current_queued t ?_ hni2
      rw [hch]
      exact hpt
    · rw [show (s.setAttr h a).current = s.current from rfl] at hpt2
      simp [hch] at hpt2
      exact hs.current_queued t2 hpt2 hni2
  · intro t2 hpt2 hpi2
    by_cases hch : s.current = h
    · rw [show (s.setAttr h a).current = s.current from rfl, hch] at hpt2
      simp [hpt] at hpt2
      subst hpt2
      refine hs.current_idle t ?_ hpi2
      rw [hch]
      exact hpt
    · rw [show (s.setAttr h a).current = s.current from rfl] at hpt2
      simp [hch] at hpt2
      exact hs.current_idle t2 hpt2 hpi2
  · intro h2 hmem
    simp only [SchedState.setAttr_urgent, SchedState.setAttr_ready] at hmem
    obtain ⟨t2, hpt2, hni2, hq2, hs2, hz2⟩ := hs.queues_live h2 hmem
    by_cases h2h : h2 = h
    · rw [h2h] at hpt2
      rw [hpt] at hpt2
      injection hpt2 with hpt3
      subst hpt3
      refine ⟨{ t with attrs := a }, ?_, hni2, ?_, ?_, ?_⟩
      · rw [h2h]
        simp [hpt]
      · show a.queued = true
        rw [hq]
        exact hq2
      · show a.asleep = false
        rw [hsl]
        exact hs2
      · show a.zombie = false
        rw [hz]
        exact hz2
    · exact ⟨t2, by simp [h2h, hpt2], hni2, hq2, hs2, hz2⟩
  · intro h2 t2 hpt2 hq2
    by_cases h2h : h2 = h
    · rw [h2h] at hpt2
      simp [hpt] at hpt2
      subst hpt2
      show a.asleep = false
      rw [hsl]
      refine hs.no_qa h t hpt ?_
      rw [← hq]
      exact hq2
    · simp [h2h] at hpt2
      exact hs.no_qa h2 t2 hpt2 hq2
  · intro h2 t2 hpt2
    by_cases h2h : h2 = h
    · rw [h2h] at hpt2
      simp [hpt] at hpt2
      subst hpt2
      show a.zombie = false
      rw [hz]
      exact hs.no_zombie h t hpt
    · simp [h2h] at hpt2
      exact hs.no_zombie h2 t2 hpt2
  · exact hs.current_notin
  · exact hs.nodup
  · intro h2 hge
    have hge2 : s.nextHandle ≤ h2 := hge
    have h2h : ¬ h2 = h := by
      have := hs.toPre.live_lt hpt
      omega
    simp [h2h]
    exact hs.fresh h2 hge2
  · exact hs.retired_none

/-- Marking the current thread (in particular `ASLEEP`, as `Scheduler::sleep`
does) preserves the switch precondition as long as `QUEUED` and `ZOMBIE` are
untouched. -/
theorem invPre_setAttr_current {s : SchedState} (hs : Inv s) {t : RawThread}
    (hpt : s.pool s.current = some t) {a : ThreadAttributes}
    (hq : a.queued = t.attrs.queued) (hz : a.zombie = t.attrs.zombie) :
    InvPre (s.setAttr s.current a) := by
  refine ⟨?_, ?_, ?_, ?_, ?_, ?_, ?_, ?_, ?_, ?_, ?_⟩
  · obtain ⟨ti, hti, hpi, hqi⟩ := hs.idle_thread
    by_cases hih : s.idle = s.current
    · rw [hih, hpt] at hti
      injection hti with hti2
      subst hti2
      refine ⟨{ t with attrs := a }, ?_, hpi, by rw [hq]; exact hqi⟩
      rw [show (s.setAttr s.current a).idle = s.idle from rfl, hih]
      simp [hpt]
    · exact ⟨ti, by simp [hih, hti], hpi, hqi⟩
  · exact ⟨{ t with attrs := a }, by simp [hpt]⟩
  · intro t2 hpt2 hni2
    simp [hpt] at hpt2
    subst hpt2
    rw [hq]
    exact hs.current_queued t hpt hni2
  · intro t2 hpt2 hpi2
    simp [hpt] at hpt2
    subst hpt2
    exact hs.current_idle t hpt hpi2
  · intro h2 hmem
    simp only [SchedState.setAttr_urgent, SchedState.setAttr_ready] at hmem
    obtain ⟨t2, hpt2, hni2, hq2, hs2, hz2⟩ := hs.queues_live h2 hmem
    have h2c : ¬ h2 = s.current := by
      intro hh
      subst hh
      rcases List.mem_append.mp hmem with hmem2 | hmem2
      · exact hs.current_notin.1 hmem2
      · exact hs.current_notin.2 hmem2
    exact ⟨t2, by simp [h2c, hpt2], hni2, hq2, hs2, hz2⟩
  · intro h2 t2 hpt2 h2c hq2
    have h2c2 : ¬ h2 = s.current := h2c
    simp [h2c2] at hpt2
    exact hs.no_qa h2 t2 hpt2 hq2
  · intro h2 t2 hpt2
    by_cases h2c : h2 = s.current
    · subst h2c
      simp [hpt] at hpt2
      subst hpt2
      rw [hz]
      exact hs.no_zombie s.current t hpt
    · simp [h2c] at hpt2
      exact hs.no_zombie h2 t2 hpt2
  · exact hs.current_notin
  · exact hs.nodup
  · intro h2 hge
    have hge2 : s.nextHandle ≤ h2 := hge
    have h2c : ¬ h2 = s.current := by
      have := hs.toPre.live_lt hpt
      omega
    simp [h2c]
    exact hs.fresh h2 hge2
  · exact hs.retired_none

/-- `Scheduler::add` preserves the invariant provided the target thread has
`AWAKE` latched or is not `ASLEEP` — which both call sites (wake and spawn)
guarantee. -/
theorem add_inv {s : SchedState} (hs : Inv s) {h : Nat}
    (hcond : ∀ t, s.pool h = some t → t.attrs.awake = true ∨ t.attrs.asleep = false)
    {s' : SchedState} (he : s.add h = some s') : Inv s' := by
  rcases hpt : s.pool h with _ | t
  · rw [SchedState.add, hpt] at he
    cases he
  · rw [SchedState.add, hpt] at he
    by_cases hib : t.priority = Priority.idle ∨ t.attrs.contains ThreadAttr.zombie = true
    · simp only [if_pos hib] at he
      injection he with he2
      subst he2
      exact hs
    · simp only [if_neg hib] at he
      have hni : t.priority ≠ Priority.idle := fun hh => hib (Or.inl hh)
      have hz : t.attrs.zombie = false := hs.no_zombie h t hpt
      by_cases hq : t.attrs.queued = true
      · simp only [ThreadAttributes.testAndSet, ThreadAttributes.contains, hq] at he
        injection he with he2
        subst he2
        exact hs
      · have hqf : t.attrs.queued = false := by simpa using hq
        have hnc : h ≠ s.current := by
          intro hh
          subst hh
          exact hq (hs.current_queued t hpt hni)
        have hnotin : h ∉ s.urgent.vec ++ s.ready.vec := by
          intro hmem
          obtain ⟨t2, hpt2, _, hq2, _⟩ := hs.queues_live h hmem
          rw [hpt] at hpt2
          injection hpt2 with hpt3
          subst hpt3
          exact hq hq2
        have hpre : EnqueuePre s h :=
          ⟨hs.idle_thread, hs.current_live, hs.current_queued, hs.current_idle,
            hs.queues_live, fun h2 t2 hpt2 _ hq2 => hs.no_qa h2 t2 hpt2 hq2,
            hs.no_zombie, hs.current_notin, hs.nodup, hs.fresh, hs.retired_none,
            ⟨fun hm => hnotin (List.mem_append.mpr (Or.inl hm)),
              fun hm => hnotin (List.mem_append.mpr (Or.inr hm))⟩, hnc⟩
        simp only [ThreadAttributes.testAndSet, ThreadAttributes.contains, hqf] at he
        by_cases haw : t.attrs.awake = true
        · simp only [ThreadAttributes.testAndClear, ThreadAttributes.contains,
            ThreadAttributes.insert, haw] at he
          injection he with he2
          subst he2
          exact enqueue_ready_inv hpre hpt hni _ rfl rfl hz
        · have hawf : t.attrs.awake = false := by simpa using haw
          simp only [ThreadAttributes.testAndClear, ThreadAttributes.contains,
            ThreadAttributes.insert, hawf] at he
          injection he with he2
          subst he2
          have hsl : t.attrs.asleep = false := by
            rcases hcond t hpt with hcon | hcon
            · rw [hcon] at hawf
              cases hawf
            · exact hcon
          exact enqueue_ready_inv hpre hpt hni _ rfl hsl hz

/-- `ThreadHandle::wake` preserves the invariant. -/
theorem wake_inv {s : SchedState} (hs : Inv s) {h : Nat} {s' : SchedState}
    (he : s.wake h = some s') : Inv s' := by
  rcases hpt : s.pool h with _ | t
  · rw [SchedState.wake, hpt] at he
    cases he
  · rw [SchedState.wake, hpt] at he
    have hmid : Inv (s.setAttr h (t.attrs.insert ThreadAttr.awake)) :=
      inv_setAttr hs hpt rfl rfl rfl
    refine add_inv hmid ?_ he
    intro t2 hpt2
    simp [hpt] at hpt2
    subst hpt2
    left
    rfl

/-- `Scheduler::sleep` preserves the invariant. -/
theorem sleep_inv {s : SchedState} (hs : Inv s) {s' : SchedState}
    (he : s.sleep = some s') : Inv s' := by
  rcases hpt : s.pool s.current with _ | t
  · rw [SchedState.sleep, hpt] at he
    cases he
  · rw [SchedState.sleep, hpt] at he
    have hpre : InvPre (s.setAttr s.current (t.attrs.insert ThreadAttr.asleep)) :=
      invPre_setAttr_current hs hpt rfl rfl
    exact switch_inv hpre he

/-- The invariant ignores the process-id counter. -/
theorem inv_nextPid {s : SchedState} (hs : Inv s) (n : Nat) :
    Inv { s with nextPid := n } :=
  ⟨hs.idle_thread, hs.current_live, hs.current_queued, hs.current_idle, hs.queues_live,
    hs.no_qa, hs.no_zombie, hs.current_notin, hs.nodup, hs.fresh, hs.retired_none⟩

/-- Registering a fresh control block under the next handle and adding it
preserves the invariant. -/
theorem spawn_core_inv {s : SchedState} (hs : Inv s) (pid : Nat) (p : Priority)
    {s' : SchedState}
    (he : SchedState.add { s with
        nextHandle := s.nextHandle + 1,
        pool := s.pool.add (RawThread.new pid p s.nextHandle) } s.nextHandle = some s') :
    Inv s' := by
  have hpool2 : ∀ h2, (s.pool.add (RawThread.new pid p s.nextHandle)) h2 =
      if h2 = s.nextHandle then some (RawThread.new pid p s.nextHandle) else s.pool h2 :=
    fun _ => rfl
  have hs2 : Inv { s with
      nextHandle := s.nextHandle + 1,
      pool := s.pool.add (RawThread.new pid p s.nextHandle) } := by
    refine ⟨?_, ?_, ?_, ?_, ?_, ?_, ?_, hs.current_notin, hs.nodup, ?_, hs.retired_none⟩
    · obtain ⟨ti, hti, hpi, hqi⟩ := hs.idle_thread
      have hlt := hs.toPre.live_lt hti
      refine ⟨ti, ?_, hpi, hqi⟩
      show s.pool.add (RawThread.new pid p s.nextHandle) s.idle = some ti
      rw [hpool2]
      have : ¬ s.idle = s.nextHandle := by omega
      simp [this, hti]
    · obtain ⟨tc, htc⟩ := hs.current_live
      have hlt := hs.toPre.live_lt htc
      refine ⟨tc, ?_⟩
      show s.pool.add (RawThread.new pid p s.nextHandle) s.current = some tc
      rw [hpool2]
      have : ¬ s.current = s.nextHandle := by omega
      simp [this, htc]
    · intro t2 hpt2 hni2
      have hpt2b : s.pool.add (RawThread.new pid p s.nextHandle) s.current = some t2 := hpt2
      rw [hpool2] at hpt2b
      obtain ⟨tc, htc⟩ := hs.current_live
      have hlt := hs.toPre.live_lt htc
      have : ¬ s.current = s.nextHandle := by omega
      rw [if_neg this] at hpt2b
      exact hs.current_queued t2 hpt2b hni2
    · intro t2 hpt2 hpi2
      have hpt2b : s.pool.add (RawThread.new pid p s.nextHandle) s.current = some t2 := hpt2
      rw [hpool2] at hpt2b
      obtain ⟨tc, htc⟩ := hs.current_live
      have hlt := hs.toPre.live_lt htc
      have : ¬ s.current = s.nextHandle := by omega
      rw [if_neg this] at hpt2b
      exact hs.current_idle t2 hpt2b hpi2
    · intro h2 hmem
      have hmem2 : h2 ∈ s.urgent.vec ++ s.ready.vec := hmem
      obtain ⟨t2, hpt2, hx⟩ := hs.queues_live h2 hmem2
      have hlt := hs.toPre.live_lt hpt2
      refine ⟨t2, ?_, hx⟩
      show s.pool.add (RawThread.new pid p s.nextHandle) h2 = some t2
      rw [hpool2]
      have : ¬ h2 = s.nextHandle := by omega
      simp [this, hpt2]
    · intro h2 t2 hpt2 hq2
      have hpt2b : s.pool.add (RawThread.new pid p s.nextHandle) h2 = some t2 := hpt2
      rw [hpool2] at hpt2b
      by_cases h2n : h2 = s.nextHandle
      · rw [if_pos h2n] at hpt2b
        injection hpt2b with hpt3
        subst hpt3
        cases hq2
      · rw [if_neg h2n] at hpt2b
        exact hs.no_qa h2 t2 hpt2b hq2
    · intro h2 t2 hpt2
      have hpt2b : s.pool.add (RawThread.new pid p s.nextHandle) h2 = some t2 := hpt2
      rw [hpool2] at hpt2b
      by_cases h2n : h2 = s.nextHandle
      · rw [if_pos h2n] at hpt2b
        injection hpt2b with hpt3
        subst hpt3
        rfl
      · rw [if_neg h2n] at hpt2b
        exact hs.no_zombie h2 t2 hpt2b
    · intro h2 hge
      have hge2 : s.nextHandle + 1 ≤ h2 := hge
      show s.pool.add (RawThread.new pid p s.nextHandle) h2 = none
      rw [hpool2]
      have : ¬ h2 = s.nextHandle := by omega
      simp [this]
      exact hs.fresh h2 (by omega)
  refine add_inv hs2 ?_ he
  intro t2 hpt2
  have hpt2b : s.pool.add (RawThread.new pid p s.nextHandle) s.nextHandle = some t2 := hpt2
  rw [hpool2] at hpt2b
  simp only [if_pos rfl] at hpt2b
  injection hpt2b with hpt3
  subst hpt3
  right
  rfl

/-- `Scheduler::spawn_f` preserves the invariant. -/
theorem spawnF_inv {s : SchedState} (hs : Inv s) {p : Priority} {rp : Bool}
    {s' : SchedState} (he : s.spawnF p rp = some s') : Inv s' := by
  cases rp
  · simp only [SchedState.spawnF, Bool.false_eq_true, if_false, ite_false,
      reduceIte] at he
    exact spawn_core_inv hs _ p he
  · simp only [SchedState.spawnF, reduceIte] at he
    exact spawn_core_inv (inv_nextPid hs (s.nextPid + 1)) _ p he

/-- Every operation preserves the invariant. -/
theorem step_inv {s : SchedState} (hs : Inv s) {op : Op} {s' : SchedState}
    (he : s.step op = some s') : Inv s' := by
  cases op
  · exact spawnF_inv hs he
  · exact wake_inv hs he
  · exact sleep_inv hs he
  · exact switch_inv hs.toPre he

/-- Every completed operation sequence preserves the invariant. -/
theorem run_inv {ops : List Op} {s s' : SchedState} (hs : Inv s)
    (he : s.run ops = some s') : Inv s' := by
  induction ops generalizing s with
  | nil =>
    simp only [SchedState.run] at he
    injection he with he2
    subst he2
    exact hs
  | cons op ops ih =>
    simp only [SchedState.run] at he
    rcases hstep : s.step op with _ | s1
    · rw [hstep] at he
      cases he
    · rw [hstep] at he
      exact ih (step_inv hs hstep) he

/-- Retirement of a live handle never panics. -/
theorem retire_isSome {u : SchedState} {r : Nat} {t : RawThread}
    (hpt : u.pool r = some t) : ∃ s', u.retire r = some s' := by
  rw [SchedState.retire, hpt]
  by_cases h1 : t.priority = Priority.idle
  · simp [h1]
  · by_cases h2 : t.attrs.zombie = true
    · simp [h1, ThreadAttributes.contains, h2]
    · simp only [Bool.not_eq_true] at h2
      by_cases h3 : t.attrs.awake = true
      · simp [h1, ThreadAttributes.contains, h2, ThreadAttributes.testAndClear, h3]
      · simp only [Bool.not_eq_true] at h3
        by_cases h4 : t.attrs.asleep = true
        · simp [h1, ThreadAttributes.contains, h2, ThreadAttributes.testAndClear, h3, h4]
        · simp only [Bool.not_eq_true] at h4
          simp [h1, ThreadAttributes.contains, h2, ThreadAttributes.testAndClear, h3, h4]

/-- The retirement of a thread with `AWAKE` latched (not a zombie, not idle)
clears `AWAKE` and `ASLEEP` and appends the handle to `ready`. -/
theorem retire_awake_spec {u : SchedState} {r : Nat} {t : RawThread}
    (hpt : u.pool r = some t) (hni : t.priority ≠ Priority.idle)
    (hz : t.attrs.zombie = false) (hw : t.attrs.awake = true) :
    u.retire r = some { u.setAttr r ((t.attrs.remove ThreadAttr.awake).remove
      ThreadAttr.asleep) with ready := { u.ready with vec := u.ready.vec ++ [r] } } := by
  rw [SchedState.retire, hpt]
  simp [hni, ThreadAttributes.contains, hz, ThreadAttributes.testAndClear, hw,
    ThreadQueue.enqueue]

/-- The context switch never panics on a state satisfying its
precondition. -/
theorem switch_isSome {v : SchedState} (hp : InvPre v) :
    ∃ s', v.switchContext = some s' := by
  obtain ⟨tc, htc⟩ := hp.current_live
  obtain ⟨ti, hti, hpi, hqi⟩ := hp.idle_thread
  rcases nextThread_spec v with ⟨hu, hr, hn⟩ | ⟨x, xs, hu, hn⟩ | ⟨x, xs, hu, hr, hn⟩
  · by_cases hc : v.current = v.idle
    · exact ⟨v, by rw [SchedState.switchContext, hn]; simp [hc]⟩
    · have hci : ¬ v.current = v.idle := hc
      rw [SchedState.switchContext, hn]
      simp only [Option.getD_none]
      rw [if_neg hc]
      rw [hti]
      simp only [SchedState.setAttr_retired]
      exact @retire_isSome _ _ tc (by simp [hci, htc])
  · have hcx : ¬ v.current = x := fun hh => hp.current_notin.1 (by
      rw [hu, hh]; exact List.mem_cons_self x xs)
    have hxmem : x ∈ v.urgent.vec ++ v.ready.vec := by
      rw [hu]; exact List.mem_append.mpr (Or.inl (List.mem_cons_self x xs))
    obtain ⟨tx, hptx, _⟩ := hp.queues_live x hxmem
    rw [SchedState.switchContext, hn]
    simp only [Option.getD_some]
    rw [if_neg hcx]
    rw [hptx]
    simp only [SchedState.setAttr_retired]
    exact @retire_isSome _ _ tc (by simp [hcx, htc])
  · have hcx : ¬ v.current = x := fun hh => hp.current_notin.2 (by
      rw [hr, hh]; exact List.mem_cons_self x xs)
    have hxmem : x ∈ v.urgent.vec ++ v.ready.vec := by
      rw [hr]; exact List.mem_append.mpr (Or.inr (List.mem_cons_self x xs))
    obtain ⟨tx, hptx, _⟩ := hp.queues_live x hxmem
    rw [SchedState.switchContext, hn]
    simp only [Option.getD_some]
    rw [if_neg hcx]
    rw [hptx]
    simp only [SchedState.setAttr_retired]
    exact @retire_isSome _ _ tc (by simp [hcx, htc])

/-- The awake-latched retirement, observed on the result: the handle joins
`ready` and its thread keeps `QUEUED` with `ASLEEP` cleared. -/
theorem retire_awake_mem {u : SchedState} {r : Nat} {t : RawThread}
    (hpt : u.pool r = some t) (hni : t.priority ≠ Priority.idle)
    (hz : t.attrs.zombie = false) (hw : t.attrs.awake = true) {s' : SchedState}
    (he : u.retire r = some s') :
    r ∈ s'.ready.vec ∧ ∃ t', s'.pool r = some t' ∧ t'.attrs.asleep = false ∧
      t'.attrs.queued = t.attrs.queued := by
  rw [retire_awake_spec hpt hni hz hw] at he
  injection he with he2
  subst he2
  refine ⟨List.mem_append.mpr (Or.inr (List.mem_singleton.mpr rfl)), ?_⟩
  exact ⟨{ t with attrs := (t.attrs.remove ThreadAttr.awake).remove ThreadAttr.asleep },
    by simp [hpt], rfl, rfl⟩

/-- When the thread being switched away from has `AWAKE` latched, its
deferred retirement re-enqueues it to `ready` with `ASLEEP` cleared — the
latched wake is consumed, not lost. -/
theorem switch_requeues_awake {v : SchedState} (hp : InvPre v) {tcur : RawThread}
    (hptc : v.pool v.current = some tcur) (hni : tcur.priority ≠ Priority.idle)
    (hw : tcur.attrs.awake = true) {s' : SchedState}
    (he : v.switchContext = some s') :
    v.current ∈ s'.ready.vec ∧
      ∃ t', s'.pool v.current = some t' ∧ t'.attrs.asleep = false ∧
        t'.attrs.queued = tcur.attrs.queued := by
  obtain ⟨ti, hti, hpi, hqi⟩ := hp.idle_thread
  have hz : tcur.attrs.zombie = false := hp.no_zombie v.current tcur hptc
  rcases nextThread_spec v with ⟨hu, hr, hn⟩ | ⟨x, xs, hu, hn⟩ | ⟨x, xs, hu, hr, hn⟩
  · have hc : ¬ v.current = v.idle := by
      intro hh
      rw [hh, hti] at hptc
      injection hptc with hptc2
      subst hptc2
      exact hni hpi
    rw [SchedState.switchContext, hn] at he
    simp only [Option.getD_none] at he
    rw [if_neg hc] at he
    rw [hti] at he
    simp only [SchedState.setAttr_retired] at he
    exact retire_awake_mem (by simp [hc, hptc]) hni hz hw he
  · have hcx : ¬ v.current = x := fun hh => hp.current_notin.1 (by
      rw [hu, hh]; exact List.mem_cons_self x xs)
    have hxmem : x ∈ v.urgent.vec ++ v.ready.vec := by
      rw [hu]; exact List.mem_append.mpr (Or.inl (List.mem_cons_self x xs))
    obtain ⟨tx, hptx, _⟩ := hp.queues_live x hxmem
    rw [SchedState.switchContext, hn] at he
    simp only [Option.getD_some] at he
    rw [if_neg hcx] at he
    rw [hptx] at he
    simp only [SchedState.setAttr_retired] at he
    exact retire_awake_mem (by simp [hcx, hptc]) hni hz hw he
  · have hcx : ¬ v.current = x := fun hh => hp.current_notin.2 (by
      rw [hr, hh]; exact List.mem_cons_self x xs)
    have hxmem : x ∈ v.urgent.vec ++ v.ready.vec := by
      rw [hr]; exact List.mem_append.mpr (Or.inr (List.mem_cons_self x xs))
    obtain ⟨tx, hptx, _⟩ := hp.queues_live x hxmem
    rw [SchedState.switchContext, hn] at he
    simp only [Option.getD_some] at he
    rw [if_neg hcx] at he
    rw [hptx] at he
    simp only [SchedState.setAttr_retired] at he
    exact retire_awake_mem (by simp [hcx, hptc]) hni hz hw he

/-- `wake` on a live, non-idle, non-zombie thread that is not `QUEUED`:
`AWAKE` is latched and immediately consumed by `Scheduler::add`, which
clears `AWAKE`/`ASLEEP`, sets `QUEUED` and enqueues the handle to
`ready`. -/
theorem wake_unqueued_spec {s : SchedState} {h : Nat} {t : RawThread}
    (hpt : s.pool h = some t) (hni : t.priority ≠ Priority.idle)
    (hz : t.attrs.zombie = false) (hqf : t.attrs.queued = false) :
    ∃ s', s.wake h = some s' ∧ s'.ready.vec = s.ready.vec ++ [h] ∧
      s'.urgent = s.urgent ∧
      ∃ t', s'.pool h = some t' ∧ t'.attrs.queued = true ∧ t'.attrs.awake = false ∧
        t'.attrs.asleep = false := by
  have hpt1 : (s.setAttr h (t.attrs.insert ThreadAttr.awake)).pool h =
      some { t with attrs := t.attrs.insert ThreadAttr.awake } := by simp [hpt]
  have hwadd : s.wake h = (s.setAttr h (t.attrs.insert ThreadAttr.awake)).add h := by
    rw [SchedState.wake, hpt]
  rw [hwadd, SchedState.add, hpt1]
  have hcond : ¬ ({ t with attrs := t.attrs.insert ThreadAttr.awake }.priority =
      Priority.idle ∨ ({ t with attrs := t.attrs.insert ThreadAttr.awake } :
      RawThread).attrs.contains ThreadAttr.zombie = true) := by
    simp [ThreadAttributes.contains, ThreadAttributes.insert, hz, hni]
  simp only [if_neg hcond]
  simp only [ThreadAttributes.testAndSet, ThreadAttributes.testAndClear,
    ThreadAttributes.contains, ThreadAttributes.insert, ThreadAttributes.remove, hqf]
  refine ⟨_, rfl, by simp, rfl, ?_⟩
  exact ⟨{ t with attrs :=
      { queued := true, asleep := false, awake := false, zombie := t.attrs.zombie } },
    by simp [hpt], rfl, rfl, rfl⟩

/-- C1: over every sequence of spawn/wake/sleep/yield operations from the
started scheduler, no live thread ever has `QUEUED` and `ASLEEP` set at
once, and an `ASLEEP` thread sits in neither run queue — the derived states
(Ready, Running, Asleep, Zombie) are therefore mutually exclusive for every
live handle. -/
theorem c1_attribute_exclusion (ops : List Op) (s : SchedState)
    (he : initState.run ops = some s) :
    ∀ h t, s.pool h = some t →
      ¬(t.attrs.queued = true ∧ t.attrs.asleep = true) ∧
      (t.attrs.asleep = true → h ∉ s.urgent.vec ∧ h ∉ s.ready.vec) := by
  have hinv := run_inv inv_init he
  intro h t hpt
  refine ⟨?_, ?_⟩
  · rintro ⟨hq2, hsl2⟩
    rw [hinv.no_qa h t hpt hq2] at hsl2
    cases hsl2
  · intro hsl2
    constructor
    · intro hmem
      obtain ⟨t2, hpt2, -, -, hs2, -⟩ :=
        hinv.queues_live h (List.mem_append.mpr (Or.inl hmem))
      rw [hpt] at hpt2
      injection hpt2 with hpt3
      subst hpt3
      rw [hsl2] at hs2
      cases hs2
    · intro hmem
      obtain ⟨t2, hpt2, -, -, hs2, -⟩ :=
        hinv.queues_live h (List.mem_append.mpr (Or.inr hmem))
      rw [hpt] at hpt2
      injection hpt2 with hpt3
      subst hpt3
      rw [hsl2] at hs2
      cases hs2

/-- C1 (witness): a concrete spawn/yield/sleep sequence, checked against the
exclusion property. -/
theorem c1_witness :
    ∃ s, initState.run [Op.spawn Priority.normal true, Op.yieldThread, Op.sleep] =
        some s ∧
      ∀ h t, s.pool h = some t →
        ¬(t.attrs.queued = true ∧ t.attrs.asleep = true) ∧
        (t.attrs.asleep = true → h ∉ s.urgent.vec ∧ h ∉ s.ready.vec) :=
  ⟨_, rfl, fun h t hpt =>
    c1_attribute_exclusion [Op.spawn Priority.normal true, Op.yieldThread, Op.sleep]
      _ rfl h t hpt⟩

/-- C4: `Scheduler::next` dequeues the oldest urgent handle; only when
`urgent` is empty the oldest ready handle; `none` when both are empty, in
which case the context-switch path falls back to the idle handle.  On every
reachable state the idle thread is in neither run queue, and it is selected
exactly when both queues are empty. -/
theorem c4_next_selection (s0 : SchedState) :
    (∀ x xs, s0.urgent.vec = x :: xs →
      s0.nextThread = (some x, { s0 with urgent := { s0.urgent with vec := xs } })) ∧
    (∀ x xs, s0.urgent.vec = [] → s0.ready.vec = x :: xs →
      s0.nextThread = (some x, { s0 with ready := { s0.ready with vec := xs } })) ∧
    (s0.urgent.vec = [] → s0.ready.vec = [] →
      s0.nextThread = (none, s0) ∧ s0.selectedNext = s0.idle) ∧
    (∀ ops, initState.run ops = some s0 →
      (s0.idle ∉ s0.urgent.vec ∧ s0.idle ∉ s0.ready.vec) ∧
      (s0.selectedNext = s0.idle ↔ s0.urgent.vec = [] ∧ s0.ready.vec = [])) := by
  refine ⟨?_, ?_, ?_, ?_⟩
  · intro x xs hu
    simp [SchedState.nextThread, ThreadQueue.dequeue, hu]
  · intro x xs hu hr
    simp [SchedState.nextThread, ThreadQueue.dequeue, hu, hr]
  · intro hu hr
    constructor
    · simp [SchedState.nextThread, ThreadQueue.dequeue, hu, hr]
    · simp [SchedState.selectedNext, SchedState.nextThread, ThreadQueue.dequeue, hu, hr]
  · intro ops he
    have hinv := run_inv inv_init he
    obtain ⟨hn1, hn2⟩ := hinv.toPre.idle_notin
    refine ⟨⟨hn1, hn2⟩, ⟨?_, ?_⟩⟩
    · intro hsel
      rcases hu : s0.urgent.vec with _ | ⟨x, xs⟩
      · rcases hr2 : s0.ready.vec with _ | ⟨y, ys⟩
        · exact ⟨rfl, rfl⟩
        · have hy : s0.selectedNext = y := by
            simp [SchedState.selectedNext, SchedState.nextThread, ThreadQueue.dequeue,
              hu, hr2]
          have hyi : y = s0.idle := by rw [← hy]; exact hsel
          have hymem : y ∈ s0.urgent.vec ++ s0.ready.vec := by
            rw [hr2]; exact List.mem_append.mpr (Or.inr (List.mem_cons_self y ys))
          obtain ⟨ty, hpty, hniy, -⟩ := hinv.queues_live y hymem
          obtain ⟨ti, hti, hpi, -⟩ := hinv.idle_thread
          rw [hyi, hti] at hpty
          injection hpty with hpty2
          subst hpty2
          exact absurd hpi hniy
      · have hx : s0.selectedNext = x := by
          simp [SchedState.selectedNext, SchedState.nextThread, ThreadQueue.dequeue, hu]
        have hxi : x = s0.idle := by rw [← hx]; exact hsel
        have hxmem : x ∈ s0.urgent.vec ++ s0.ready.vec := by
          rw [hu]; exact List.mem_append.mpr (Or.inl (List.mem_cons_self x xs))
        obtain ⟨tx, hptx, hnix, -⟩ := hinv.queues_live x hxmem
        obtain ⟨ti, hti, hpi, -⟩ := hinv.idle_thread
        rw [hxi, hti] at hptx
        injection hptx with hptx2
        subst hptx2
        exact absurd hpi hnix
    · rintro ⟨hu, hr2⟩
      simp [SchedState.selectedNext, SchedState.nextThread, ThreadQueue.dequeue, hu, hr2]

/-- C4 (witness): after spawning one Normal thread, `next` dequeues it, the
idle handle is in neither queue, and the idle fallback is not selected. -/
theorem c4_witness :
    ∃ s, initState.run [Op.spawn Priority.normal true] = some s ∧
      s.nextThread = (some 2, { s with ready := { s.ready with vec := [] } }) ∧
      (s.idle ∉ s.urgent.vec ∧ s.idle ∉ s.ready.vec) ∧
      (s.selectedNext = s.idle ↔ s.urgent.vec = [] ∧ s.ready.vec = []) :=
  ⟨_, rfl, (c4_next_selection _).2.1 2 [] rfl rfl,
    ((c4_next_selection _).2.2.2 [Op.spawn Priority.normal true] rfl).1,
    ((c4_next_selection _).2.2.2 [Op.spawn Priority.normal true] rfl).2⟩

/-- C5: on every reachable state, a wake aimed at a non-queued (e.g.
sleeping) thread immediately clears `AWAKE`/`ASLEEP`, sets `QUEUED` and
enqueues it Ready; and a wake aimed at the running thread (still `QUEUED`)
latches `AWAKE`, so that when the thread subsequently sleeps, its deferred
retirement enqueues it Ready — still `QUEUED`, not `ASLEEP` — instead of
leaving it Asleep: the wake is never lost. -/
theorem c5_wake_not_lost (ops : List Op) (s : SchedState)
    (he : initState.run ops = some s) :
    (∀ h t, s.pool h = some t → t.attrs.queued = false → t.priority ≠ Priority.idle →
      ∃ s', s.wake h = some s' ∧ s'.ready.vec = s.ready.vec ++ [h] ∧
        ∃ t', s'.pool h = some t' ∧ t'.attrs.queued = true ∧ t'.attrs.awake = false ∧
          t'.attrs.asleep = false) ∧
    (∀ t, s.pool s.current = some t → t.priority ≠ Priority.idle →
      ∃ s', s.run [Op.wake s.current, Op.sleep] = some s' ∧
        s.current ∈ s'.ready.vec ∧
        ∃ t', s'.pool s.current = some t' ∧ t'.attrs.asleep = false ∧
          t'.attrs.queued = true) := by
  have hinv := run_inv inv_init he
  constructor
  · intro h t hpt hqf hni
    obtain ⟨s', hw, hr, -, ht'⟩ :=
      wake_unqueued_spec hpt hni (hinv.no_zombie h t hpt) hqf
    exact ⟨s', hw, hr, ht'⟩
  · intro t hpt hni
    have hqc : t.attrs.queued = true := hinv.current_queued t hpt hni
    have hz : t.attrs.zombie = false := hinv.no_zombie s.current t hpt
    have hpt1 : (s.setAttr s.current (t.attrs.insert ThreadAttr.awake)).pool s.current =
        some { t with attrs := t.attrs.insert ThreadAttr.awake } := by simp [hpt]
    have h1 : s.wake s.current =
        some (s.setAttr s.current (t.attrs.insert ThreadAttr.awake)) := by
      have hwadd : s.wake s.current =
          (s.setAttr s.current (t.attrs.insert ThreadAttr.awake)).add s.current := by
        rw [SchedState.wake, hpt]
      rw [hwadd, SchedState.add, hpt1]
      have hcond : ¬ ({ t with attrs := t.attrs.insert ThreadAttr.awake }.priority =
          Priority.idle ∨ ({ t with attrs := t.attrs.insert ThreadAttr.awake } :
          RawThread).attrs.contains ThreadAttr.zombie = true) := by
        simp [ThreadAttributes.contains, ThreadAttributes.insert, hz, hni]
      simp only [if_neg hcond]
      simp [ThreadAttributes.testAndSet, ThreadAttributes.contains,
        ThreadAttributes.insert, hqc]
    have hv : Inv (s.setAttr s.current (t.attrs.insert ThreadAttr.awake)) :=
      inv_setAttr hinv hpt rfl rfl rfl
    have hw2 : InvPre ((s.setAttr s.current (t.attrs.insert ThreadAttr.awake)).setAttr
        s.current ((t.attrs.insert ThreadAttr.awake).insert ThreadAttr.asleep)) :=
      invPre_setAttr_current hv hpt1 rfl rfl
    obtain ⟨s2, hsw⟩ := switch_isSome hw2
    have hsleep : (s.setAttr s.current (t.attrs.insert ThreadAttr.awake)).sleep =
        some s2 := by
      rw [SchedState.sleep]
      rw [show (s.setAttr s.current (t.attrs.insert ThreadAttr.awake)).pool
          (s.setAttr s.current (t.attrs.insert ThreadAttr.awake)).current =
          some { t with attrs := t.attrs.insert ThreadAttr.awake } from hpt1]
      exact hsw
    have hptc : ((s.setAttr s.current (t.attrs.insert ThreadAttr.awake)).setAttr
        s.current ((t.attrs.insert ThreadAttr.awake).insert ThreadAttr.asleep)).pool
        s.current = some { t with
          attrs := (t.attrs.insert ThreadAttr.awake).insert ThreadAttr.asleep } := by
      simp [hpt]
    have hkey := switch_requeues_awake hw2 hptc hni rfl hsw
    refine ⟨s2, ?_, hkey.1, ?_⟩
    · simp only [SchedState.run, SchedState.step, h1, hsleep]
    · obtain ⟨-, t', hpt', hsl', hq'⟩ := hkey
      refine ⟨t', hpt', hsl', ?_⟩
      rw [hq']
      exact hqc

/-- C5 (witness): a concrete state with the System thread running; the
wake-then-sleep sequence leaves it in the ready queue, not asleep. -/
theorem c5_witness :
    ∃ s, initState.run [Op.spawn Priority.normal true, Op.yieldThread] = some s ∧
      ∃ s', s.run [Op.wake s.current, Op.sleep] = some s' ∧
        s.current ∈ s'.ready.vec ∧
        ∃ t', s'.pool s.current = some t' ∧ t'.attrs.asleep = false ∧
          t'.attrs.queued = true :=
  ⟨_, rfl, (c5_wake_not_lost [Op.spawn Priority.normal true, Op.yieldThread]
    _ rfl).2 _ rfl (by decide)⟩

/-- C2 (counterexample): a `ThreadQueue` of configured capacity 1 already
holding one handle accepts a further enqueue: the call returns `Ok` and the
vector grows to length 2, beyond the configured capacity — no error is
returned and no abort happens, refuting the claimed fatality of
run-queue overflow. -/
theorem c2_counterexample :
    (ThreadQueue.enqueue { capacity := 1, vec := [5] } 7).2 = Except.ok () ∧
    (ThreadQueue.enqueue { capacity := 1, vec := [5] } 7).1.vec = [5, 7] ∧
    (ThreadQueue.enqueue { capacity := 1, vec := [5] } 7).1.capacity <
      (ThreadQueue.enqueue { capacity := 1, vec := [5] } 7).1.vec.length :=
  ⟨rfl, rfl, by decide⟩

/-- C2 (amended): `ThreadQueue::enqueue` is an unconditional append that
always succeeds with `Ok`, whatever the queue length relative to the
configured capacity; overflow is neither detected nor fatal (the vector
simply grows). -/
theorem c2_enqueue_unconditional (q : ThreadQueue) (h : Nat) :
    q.enqueue h = ({ q with vec := q.vec ++ [h] }, Except.ok ()) := rfl

/-- C6 (counterexample): the claim says that with Normal priority the first
10 (= the configured default) consume calls all report non-exhaustion and
only the 11th reports exhaustion; in fact the 10th call already reports
exhaustion, so the first 10 results are not all `false`. -/
theorem c6_counterexample :
    ¬ (((Quantum.ofPriority Priority.normal).consumeRun
          (Quantum.ofPriority Priority.normal).default).2.all (fun b => !b) = true) := by
  decide

/-- C6 (amended): spawning fixes the quantum counter at the priority's
configured default (High 25, Normal 10, Low 5, others 1); starting from that
default, the first `default - 1` consume calls report non-exhaustion and the
`default`-th call reports exhaustion and resets the counter to the default
(so for the one-tick classes every call reports exhaustion). -/
theorem c6_quantum_roundtrip (pid handle : Nat) (P : Priority) :
    (RawThread.new pid P handle).quantum = Quantum.ofPriority P ∧
    ((Quantum.ofPriority Priority.high).default = 25 ∧
      (Quantum.ofPriority Priority.normal).default = 10 ∧
      (Quantum.ofPriority Priority.low).default = 5 ∧
      (Quantum.ofPriority Priority.idle).default = 1 ∧
      (Quantum.ofPriority Priority.realtime).default = 1) ∧
    (Quantum.ofPriority P).consumeRun (Quantum.ofPriority P).default =
      (Quantum.ofPriority P,
        List.replicate ((Quantum.ofPriority P).default - 1) false ++ [true]) := by
  refine ⟨rfl, by decide, ?_⟩
  cases P <;> decide

/-- C8 (code bug): the tail of `RawThread::exit` does set `ZOMBIE` after the
grace delay, but then — the final `MyScheduler::sleep()` being commented out
— reaches `unreachable!()` and panics instead of performing the final
context switch, so the zombie is never retired or destroyed. -/
theorem c8_exit_tail (t : RawThread) :
    (t.exit.1.attrs.zombie = true ∧ t.exit.1.attrs.queued = t.attrs.queued) ∧
    t.exit.2 = ExitOutcome.unreachablePanic ∧
    t.exit.2 ≠ ExitOutcome.contextSwitched :=
  ⟨⟨rfl, rfl⟩, rfl, fun hh => ExitOutcome.noConfusion hh⟩

/-- C10: before the scheduler is started and enabled both accessors return
`None` rather than panicking; once `SCHEDULER` is populated and
`SCHEDULER_ENABLED` set, `current_thread` returns the handle in the current
slot and `current_pid` that thread's process id. -/
theorem c10_current_accessors (k : KernelState) :
    (k.isEnabled = false → k.currentThread = none ∧ k.currentPid = none) ∧
    (∀ s t, k.scheduler = some s → k.schedulerEnabled = true →
      s.pool s.current = some t →
      k.currentThread = some s.current ∧ k.currentPid = some t.pid) := by
  constructor
  · intro hdis
    constructor
    · simp [KernelState.currentThread, hdis]
    · simp [KernelState.currentPid, hdis]
  · intro s t hs hen hpool
    have hen2 : k.isEnabled = true := by
      simp [KernelState.isEnabled, hs, hen]
    constructor
    · simp [KernelState.currentThread, hen2, hs]
    · simp [KernelState.currentPid, KernelState.currentThread, hen2, hs, hpool]

/-- C10 (witness): with the bootstrap state in the cell, the accessors
return `None` while the enabled flag is still clear, and the idle thread's
handle and `ProcessId(0)` once it is set. -/
theorem c10_witness :
    ((KernelState.mk (some initState) false).currentThread = none ∧
      (KernelState.mk (some initState) false).currentPid = none) ∧
    ((KernelState.mk (some initState) true).currentThread = some 1 ∧
      (KernelState.mk (some initState) true).currentPid = some 0) :=
  ⟨(c10_current_accessors (KernelState.mk (some initState) false)).1 rfl,
    (c10_current_accessors (KernelState.mk (some initState) true)).2 initState
      (RawThread.new 0 Priority.idle 1) rfl rfl rfl⟩

/-- C3: routing of `Scheduler::retire` for a live handle.  An `Idle`-priority
thread is never enqueued (the state is untouched); a zombie is removed from
the registry and destroyed, not enqueued; a thread with `AWAKE` latched has
`AWAKE` and `ASLEEP` cleared and is enqueued to `ready`; a sleeping thread
(no `AWAKE`) has `QUEUED` cleared and joins neither queue; any other thread
is enqueued to `ready` unchanged. -/
theorem c3_retire_routing (s : SchedState) (h : Nat) (t : RawThread)
    (ht : s.pool h = some t) :
    (t.priority = Priority.idle → s.retire h = some s) ∧
    (t.priority ≠ Priority.idle → t.attrs.zombie = true →
      ∃ s', s.retire h = some s' ∧ s'.pool h = none ∧
        s'.urgent = s.urgent ∧ s'.ready = s.ready) ∧
    (t.priority ≠ Priority.idle → t.attrs.zombie = false → t.attrs.awake = true →
      ∃ s', s.retire h = some s' ∧
        s'.pool h = some { t with attrs := { t.attrs with awake := false, asleep := false } } ∧
        s'.urgent = s.urgent ∧ s'.ready.vec = s.ready.vec ++ [h]) ∧
    (t.priority ≠ Priority.idle → t.attrs.zombie = false → t.attrs.awake = false →
      t.attrs.asleep = true →
      ∃ s', s.retire h = some s' ∧
        s'.pool h = some { t with attrs := { t.attrs with queued := false } } ∧
        s'.urgent = s.urgent ∧ s'.ready = s.ready) ∧
    (t.priority ≠ Priority.idle → t.attrs.zombie = false → t.attrs.awake = false →
      t.attrs.asleep = false →
      ∃ s', s.retire h = some s' ∧ s'.pool h = some t ∧
        s'.urgent = s.urgent ∧ s'.ready.vec = s.ready.vec ++ [h]) := by
  refine ⟨?_, ?_, ?_, ?_, ?_⟩
  · intro hidle
    simp [SchedState.retire, ht, hidle]
  · intro hni hz
    refine ⟨{ s with pool := s.pool.dropThread h }, ?_, ?_, rfl, rfl⟩
    · simp [SchedState.retire, ht, hni, ThreadAttributes.contains, hz]
    · simp [ThreadPool.dropThread]
  · intro hni hz hw
    refine ⟨{ s.setAttr h ((t.attrs.remove ThreadAttr.awake).remove ThreadAttr.asleep) with
        ready := (s.ready.enqueue h).1 }, ?_, ?_, rfl, ?_⟩
    · simp [SchedState.retire, ht, hni, ThreadAttributes.contains, hz,
        ThreadAttributes.testAndClear, hw]
    · simp [ht, ThreadAttributes.remove]
    · simp [ThreadQueue.enqueue]
  · intro hni hz hw hsl
    refine ⟨s.setAttr h (t.attrs.remove ThreadAttr.queued), ?_, ?_, rfl, rfl⟩
    · simp [SchedState.retire, ht, hni, ThreadAttributes.contains, hz,
        ThreadAttributes.testAndClear, hw, hsl]
    · simp [ht, ThreadAttributes.remove]
  · intro hni hz hw hsl
    refine ⟨{ s with ready := (s.ready.enqueue h).1 }, ?_, ?_, rfl, ?_⟩
    · simp [SchedState.retire, ht, hni, ThreadAttributes.contains, hz,
        ThreadAttributes.testAndClear, hw, hsl]
    · simp [ht]
    · simp [ThreadQueue.enqueue]

/-- C3 (witness): retiring the bootstrap idle thread leaves the scheduler
state untouched. -/
theorem c3_witness : initState.retire 1 = some initState :=
  (c3_retire_routing initState 1 (RawThread.new 0 Priority.idle 1) rfl).1 rfl

theorem Fifo.WF.cap_pos {α : Type} {f : Fifo α} (hf : f.WF) : 0 < f.cap := by
  obtain ⟨k, hk⟩ := hf.pow
  rw [hk]
  exact Nat.pos_pow_of_pos k (by omega)

/-- The masked index increment is reduction modulo the capacity. -/
theorem Fifo.mask_mod {α : Type} {f : Fifo α} (hf : f.WF) (x : Nat) :
    x &&& f.mask = x % f.cap := by
  obtain ⟨k, hk⟩ := hf.pow
  rw [Fifo.mask, hk, Nat.and_pow_two_sub_one_eq_mod]

theorem ringCountSucc {c h t : Nat} (hh : h < c) (ht : t < c) (hne : (t + 1) % c ≠ h) :
    (if h ≤ (t + 1) % c then (t + 1) % c - h else c + (t + 1) % c - h) =
      (if h ≤ t then t - h else c + t - h) + 1 := by
  rcases Nat.lt_or_ge (t + 1) c with h1 | h1
  · rw [Nat.mod_eq_of_lt h1] at hne ⊢
    split <;> split <;> omega
  · have he2 : t + 1 = c := by omega
    rw [he2, Nat.mod_self] at hne ⊢
    split <;> split <;> omega

theorem ringCountPred {c h t : Nat} (hh : h < c) (ht : t < c) (hne : h ≠ t) :
    (if (h + 1) % c ≤ t then t - (h + 1) % c else c + t - (h + 1) % c) + 1 =
      (if h ≤ t then t - h else c + t - h) := by
  rcases Nat.lt_or_ge (h + 1) c with h1 | h1
  · rw [Nat.mod_eq_of_lt h1]
    split <;> split <;> omega
  · have he2 : h + 1 = c := by omega
    rw [he2, Nat.mod_self]
    split <;> split <;> omega

/-- Slots reachable from `head` within the stored count never alias the
`tail` slot. -/
theorem Fifo.pos_ne_tail {α : Type} {f : Fifo α} (hf : f.WF) {i : Nat}
    (hi : i < f.count) : (f.head + i) % f.cap ≠ f.tail := by
  have hh := hf.head_lt
  have ht := hf.tail_lt
  rw [Fifo.count] at hi
  by_cases hle : f.head ≤ f.tail
  · rw [if_pos hle] at hi
    have h2 : f.head + i < f.cap := by omega
    rw [Nat.mod_eq_of_lt h2]
    omega
  · rw [if_neg hle] at hi
    rcases Nat.lt_or_ge (f.head + i) f.cap with h2 | h2
    · rw [Nat.mod_eq_of_lt h2]
      omega
    · rw [Nat.mod_eq_sub_mod h2, Nat.mod_eq_of_lt (by omega)]
      omega

/-- Stepping `count` slots forward from `head` lands on `tail`. -/
theorem Fifo.head_add_count {α : Type} {f : Fifo α} (hf : f.WF) :
    (f.head + f.count) % f.cap = f.tail := by
  have hh := hf.head_lt
  have ht := hf.tail_lt
  rw [Fifo.count]
  by_cases hle : f.head ≤ f.tail
  · rw [if_pos hle]
    have h2 : f.head + (f.tail - f.head) = f.tail := by omega
    rw [h2, Nat.mod_eq_of_lt ht]
  · rw [if_neg hle]
    have h2 : f.head + (f.cap + f.tail - f.head) = f.cap + f.tail := by omega
    rw [h2, Nat.add_mod_left, Nat.mod_eq_of_lt ht]

/-- The buffer is empty exactly when `head` and `tail` coincide. -/
theorem Fifo.contents_nil_iff {α : Type} {f : Fifo α} (hf : f.WF) :
    f.contents = [] ↔ f.head = f.tail := by
  have hh := hf.head_lt
  rw [Fifo.contents, List.map_eq_nil_iff, List.range_eq_nil, Fifo.count]
  split <;> omega

/-- `Fifo::enqueue`: failure exactly at maximum occupancy, otherwise an
append. -/
theorem Fifo.enqueue_spec {α : Type} {f : Fifo α} (hf : f.WF) (d : α) :
    (f.isFull = true → f.enqueue d = Except.error d) ∧
    (f.isFull = false → ∃ f', f.enqueue d = Except.ok f' ∧ f'.WF ∧
      f'.contents = f.contents ++ [d]) := by
  have hh := hf.head_lt
  have ht := hf.tail_lt
  have hc := hf.cap_pos
  have hmask : (f.tail + 1) &&& f.mask = (f.tail + 1) % f.cap := Fifo.mask_mod hf _
  have hfull_iff : f.isFull = true ↔ (f.tail + 1) % f.cap = f.head := by
    rw [Fifo.isFull, beq_iff_eq, Fifo.count]
    rcases Nat.lt_or_ge (f.tail + 1) f.cap with h1 | h1
    · rw [Nat.mod_eq_of_lt h1]
      split <;> omega
    · have he2 : f.tail + 1 = f.cap := by omega
      rw [he2, Nat.mod_self]
      split <;> omega
  constructor
  · intro hfull
    simp only [Fifo.enqueue, hmask]
    rw [if_pos (hfull_iff.mp hfull)]
  · intro hnfull
    have hne : (f.tail + 1) % f.cap ≠ f.head := by
      intro hcontra
      rw [hfull_iff.mpr hcontra] at hnfull
      cases hnfull
    refine ⟨{ f with
        vec := fun i => if i = f.tail then d else f.vec i,
        tail := (f.tail + 1) % f.cap }, ?_, ?_, ?_⟩
    · simp only [Fifo.enqueue, hmask]
      rw [if_neg hne]
    · exact ⟨hf.pow, hh, Nat.mod_lt _ hc⟩
    · have hcnt : Fifo.count { f with
          vec := fun i => if i = f.tail then d else f.vec i,
          tail := (f.tail + 1) % f.cap } = f.count + 1 := by
        rw [Fifo.count, Fifo.count]
        exact ringCountSucc hh ht hne
      simp only [Fifo.contents]
      rw [hcnt, List.range_succ, List.map_append]
      congr 1
      · refine List.map_congr_left ?_
        intro i hi
        have hi2 : i < f.count := List.mem_range.mp hi
        have hne2 := Fifo.pos_ne_tail hf hi2
        simp [hne2]
      · simp [Fifo.head_add_count hf]

/-- `Fifo::dequeue`: nothing exactly when empty, otherwise the oldest stored
item, leaving the rest. -/
theorem Fifo.dequeue_spec {α : Type} {f : Fifo α} (hf : f.WF) :
    (f.contents = [] → f.dequeue = none) ∧
    (∀ x xs, f.contents = x :: xs → ∃ f', f.dequeue = some (x, f') ∧ f'.WF ∧
      f'.contents = xs) := by
  have hh := hf.head_lt
  have ht := hf.tail_lt
  have hc := hf.cap_pos
  have hmask : (f.head + 1) &&& f.mask = (f.head + 1) % f.cap := Fifo.mask_mod hf _
  constructor
  · intro hnil
    have hht : f.head = f.tail := (Fifo.contents_nil_iff hf).mp hnil
    simp [Fifo.dequeue, Fifo.isEmpty, hht]
  · intro x xs hcons
    have hne : f.head ≠ f.tail := by
      intro hcontra
      rw [(Fifo.contents_nil_iff hf).mpr hcontra] at hcons
      cases hcons
    have hcnt_pos : 0 < f.count := by
      rw [Fifo.count]
      split <;> omega
    obtain ⟨n, hn⟩ : ∃ n, f.count = n + 1 := ⟨f.count - 1, by omega⟩
    have hdec : f.contents = f.vec f.head :: (List.range n).map
        (fun i => f.vec ((f.head + (i + 1)) % f.cap)) := by
      rw [Fifo.contents, hn, List.range_succ_eq_map]
      simp [Function.comp, Nat.mod_eq_of_lt hh]
    rw [hdec] at hcons
    injection hcons with hx hxs
    have hstep : Fifo.count { f with head := (f.head + 1) % f.cap } + 1 = f.count := by
      rw [Fifo.count, Fifo.count]
      exact ringCountPred hh ht hne
    refine ⟨{ f with head := (f.head + 1) % f.cap }, ?_, ?_, ?_⟩
    · have hemp : f.isEmpty = false := by
        simp [Fifo.isEmpty, hne]
      simp only [Fifo.dequeue, hemp, Bool.false_eq_true, if_false, hmask]
      rw [← hx]
    · exact ⟨hf.pow, Nat.mod_lt _ hc, ht⟩
    · have hcnt2 : Fifo.count { f with head := (f.head + 1) % f.cap } = n := by
        omega
      simp only [Fifo.contents]
      rw [hcnt2, ← hxs]
      refine List.map_congr_left ?_
      intro i hi
      show f.vec (((f.head + 1) % f.cap + i) % f.cap) = f.vec ((f.head + (i + 1)) % f.cap)
      rw [Nat.mod_add_mod, Nat.add_assoc, Nat.add_comm 1 i]

/-- C9: the interrupt-safe ring buffer rejects an enqueue, returning the
item, exactly when at maximum occupancy (one slot of the power-of-two
capacity is always kept unused), and otherwise appends it; dequeue returns
nothing exactly when empty and otherwise the oldest stored item, leaving the
remainder. -/
theorem c9_fifo_contract {α : Type} (f : Fifo α) (d : α) (hf : f.WF) :
    (f.isFull = true → f.enqueue d = Except.error d) ∧
    (f.isFull = false → ∃ f', f.enqueue d = Except.ok f' ∧ f'.WF ∧
      f'.contents = f.contents ++ [d]) ∧
    (f.contents = [] → f.dequeue = none) ∧
    (∀ x xs, f.contents = x :: xs → ∃ f', f.dequeue = some (x, f') ∧ f'.WF ∧
      f'.contents = xs) :=
  ⟨(Fifo.enqueue_spec hf d).1, (Fifo.enqueue_spec hf d).2,
    (Fifo.dequeue_spec hf).1, (Fifo.dequeue_spec hf).2⟩

/-- C9 (witness): a capacity-4 ring holding two items dequeues the oldest
one and keeps the other. -/
theorem c9_witness :
    ∃ f', (⟨4, fun i => i * 10, 0, 2⟩ : Fifo Nat).dequeue = some (0, f') ∧
      f'.WF ∧ f'.contents = [10] :=
  (c9_fifo_contract ⟨4, fun i => i * 10, 0, 2⟩ 7
    ⟨⟨2, rfl⟩, by decide, by decide⟩).2.2.2 0 [10] rfl

theorem timerLe_trans : ∀ a b c : TimerEvent, timerLe a b = true → timerLe b c = true →
    timerLe a c = true := by
  intro a b c hab hbc
  simp only [timerLe, decide_eq_true_eq] at hab hbc ⊢
  omega

theorem timerLe_total : ∀ a b : TimerEvent, (timerLe a b || timerLe b a) = true := by
  intro a b
  simp only [timerLe, Bool.or_eq_true, decide_eq_true_eq]
  omega

/-- Scheduling events into the pending list only permutes: nothing is lost
or duplicated. -/
theorem foldl_scheduleTimer_perm (es : List TimerEvent) :
    ∀ acc : List TimerEvent, (es.foldl scheduleTimer acc).Perm (acc ++ es) := by
  induction es with
  | nil =>
    intro acc
    simp
  | cons e rest ih =>
    intro acc
    simp only [List.foldl_cons]
    refine (ih _).trans ?_
    refine (List.Perm.append_right rest (List.mergeSort_perm (acc ++ [e]) timerLe)).trans ?_
    rw [List.append_assoc, List.singleton_append]

theorem timerList_perm (es : List TimerEvent) : (timerList es).Perm es := by
  have h := foldl_scheduleTimer_perm es []
  rw [List.nil_append] at h
  exact h

theorem foldl_scheduleTimer_sorted (es : List TimerEvent) :
    ∀ acc : List TimerEvent, acc.Pairwise (fun a b => timerLe a b = true) →
      (es.foldl scheduleTimer acc).Pairwise (fun a b => timerLe a b = true) := by
  induction es with
  | nil =>
    intro acc h
    exact h
  | cons e rest ih =>
    intro acc h
    simp only [List.foldl_cons]
    exact ih _ (List.sorted_mergeSort timerLe_trans timerLe_total (acc ++ [e]))

/-- The pending list is always sorted by deadline. -/
theorem timerList_sorted (es : List TimerEvent) :
    (timerList es).Pairwise (fun a b => timerLe a b = true) :=
  foldl_scheduleTimer_sorted es [] List.Pairwise.nil

/-- One `schedule_timer` step is stable: events of any fixed deadline keep
their relative order. -/
theorem scheduleTimer_filter (l : List TimerEvent) (e : TimerEvent) (d : Nat) :
    (scheduleTimer l e).filter (fun x => x.deadline == d) =
      (l ++ [e]).filter (fun x => x.deadline == d) := by
  have hall : ∀ x ∈ (l ++ [e]).filter (fun x => x.deadline == d), x.deadline = d := by
    intro x hx
    have h2 := List.of_mem_filter hx
    simpa using h2
  have hpw : ((l ++ [e]).filter (fun x => x.deadline == d)).Pairwise
      (fun a b => timerLe a b = true) := by
    refine List.pairwise_of_forall_mem_list ?_
    intro a ha b hb
    simp only [timerLe, decide_eq_true_eq]
    rw [hall a ha, hall b hb]
  have hsub : ((l ++ [e]).filter (fun x => x.deadline == d)).Sublist (scheduleTimer l e) :=
    List.sublist_mergeSort timerLe_trans timerLe_total hpw (List.filter_sublist _)
  have hsub2 : ((l ++ [e]).filter (fun x => x.deadline == d)).Sublist
      ((scheduleTimer l e).filter (fun x => x.deadline == d)) := by
    have h3 := List.Sublist.filter (fun x => x.deadline == d) hsub
    rwa [List.filter_eq_self.mpr (fun a ha => by simp [hall a ha])] at h3
  have hlen : ((l ++ [e]).filter (fun x => x.deadline == d)).length =
      ((scheduleTimer l e).filter (fun x => x.deadline == d)).length :=
    (List.Perm.filter _ (List.mergeSort_perm (l ++ [e]) timerLe)).length_eq.symm
  exact (hsub2.eq_of_length hlen).symm

theorem foldl_scheduleTimer_filter (es : List TimerEvent) (d : Nat) :
    ∀ acc : List TimerEvent, (es.foldl scheduleTimer acc).filter (fun x => x.deadline == d) =
      (acc ++ es).filter (fun x => x.deadline == d) := by
  induction es with
  | nil =>
    intro acc
    simp
  | cons e rest ih =>
    intro acc
    simp only [List.foldl_cons]
    rw [ih (scheduleTimer acc e), List.filter_append, scheduleTimer_filter acc e d,
      ← List.filter_append, List.append_assoc, List.singleton_append]

/-- Elapsedness (`until` false) propagates up the deadline order. -/
theorem until_iff (e : TimerEvent) (now : Nat) :
    e.until now = true ↔ (e.deadline ≠ 0 ∧ now < e.deadline) := by
  by_cases h : e.deadline = 0
  · simp [TimerEvent.until, h]
  · simp [TimerEvent.until, h]

theorem until_mono {a b : TimerEvent} {now : Nat} (hle : timerLe a b = true)
    (ha : a.until now = true) : b.until now = true := by
  rw [until_iff] at ha ⊢
  simp only [timerLe, decide_eq_true_eq] at hle
  omega

/-- On a deadline-sorted pending list whose elapsed events all fire without
panicking (no elapsed `Window` event), the drain completes, firing exactly
the elapsed events in list order and keeping exactly the unelapsed ones. -/
theorem drainTimers_sorted (now : Nat) :
    ∀ l : List TimerEvent, l.Pairwise (fun a b => timerLe a b = true) →
      (∀ e ∈ l, e.until now = false → e.fire.isSome = true) →
      drainTimers now l = some (l.filter (fun e => ! e.until now),
        l.filter (fun e => e.until now)) := by
  intro l
  induction l with
  | nil =>
    intro _ _
    rfl
  | cons e rest ih =>
    intro h hos
    rw [List.pairwise_cons] at h
    cases hu : e.until now with
    | true =>
      have hall : ∀ b ∈ rest, b.until now = true := fun b hb => until_mono (h.1 b hb) hu
      have h1 : (e :: rest).filter (fun x => ! x.until now) = [] := by
        rw [List.filter_eq_nil_iff]
        intro a ha
        rcases List.mem_cons.mp ha with rfl | ha2
        · simp [hu]
        · simp [hall a ha2]
      have h2 : (e :: rest).filter (fun x => x.until now) = e :: rest := by
        rw [List.filter_eq_self]
        intro a ha
        rcases List.mem_cons.mp ha with rfl | ha2
        · exact hu
        · exact hall a ha2
      simp only [drainTimers, hu, if_true, h1, h2]
    | false =>
      obtain ⟨th, hth⟩ := Option.isSome_iff_exists.mp
        (hos e (List.mem_cons_self e rest) hu)
      have hrest := ih h.2 (fun x hx hxu => hos x (List.mem_cons_of_mem e hx) hxu)
      simp only [drainTimers, hu, Bool.false_eq_true, if_false, hth, hrest]
      rw [List.filter_cons_of_pos (by simp [hu]), List.filter_cons_of_neg (by simp [hu])]

/-- On a deadline-sorted pending list holding an elapsed `Window` event the
drain loop reaches that event's `todo!()` and panics: no split is produced
and no event beyond the panic point fires. -/
theorem drainTimers_window_panic (now : Nat) :
    ∀ l : List TimerEvent, l.Pairwise (fun a b => timerLe a b = true) →
      (∃ e ∈ l, e.until now = false ∧ ∃ w i, e.timerType = TimerType.window w i) →
      drainTimers now l = none := by
  intro l
  induction l with
  | nil =>
    intro _ hex
    obtain ⟨e, he, _⟩ := hex
    exact absurd he (List.not_mem_nil e)
  | cons e rest ih =>
    intro h hex
    rw [List.pairwise_cons] at h
    cases hu : e.until now with
    | true =>
      exfalso
      obtain ⟨x, hx, hxu, _⟩ := hex
      rcases List.mem_cons.mp hx with rfl | hx2
      · rw [hu] at hxu
        cases hxu
      · rw [until_mono (h.1 x hx2) hu] at hxu
        cases hxu
    | false =>
      obtain ⟨x, hx, hxu, w, i, hxt⟩ := hex
      rcases List.mem_cons.mp hx with rfl | hx2
      · have hfire : x.fire = none := by
          simp [TimerEvent.fire, hxt]
        simp only [drainTimers, hu, Bool.false_eq_true, if_false, hfire]
      · have hrest := ih h.2 ⟨x, hx2, hxu, w, i, hxt⟩
        cases hfire : e.fire with
        | none => simp only [drainTimers, hu, Bool.false_eq_true, if_false, hfire]
        | some th =>
          simp only [drainTimers, hu, Bool.false_eq_true, if_false, hfire, hrest]

/-- Two deadline-sorted lists that are permutations of each other and have
pairwise-distinct deadlines are identical. -/
theorem sorted_perm_eq : ∀ l₁ l₂ : List TimerEvent,
    l₁.Pairwise (fun a b => timerLe a b = true) →
    l₂.Pairwise (fun a b => timerLe a b = true) →
    l₁.Perm l₂ →
    (∀ a ∈ l₁, ∀ b ∈ l₁, a.deadline = b.deadline → a = b) →
    l₁ = l₂ := by
  intro l₁
  induction l₁ with
  | nil =>
    intro l₂ _ _ hp _
    exact hp.nil_eq
  | cons a t ih =>
    intro l₂ hs₁ hs₂ hp hinj
    cases l₂ with
    | nil => exact absurd hp.eq_nil (List.cons_ne_nil a t)
    | cons b t₂ =>
      have hmem_b : b ∈ a :: t := hp.mem_iff.mpr (List.mem_cons_self b t₂)
      have hab : a = b := by
        by_contra hne
        have hmem_a : a ∈ b :: t₂ := hp.mem_iff.mp (List.mem_cons_self a t)
        have ha2 : a ∈ t₂ := by
          rcases List.mem_cons.mp hmem_a with h | h
          · exact absurd h hne
          · exact h
        have hb2 : b ∈ t := by
          rcases List.mem_cons.mp hmem_b with h | h
          · exact absurd h.symm hne
          · exact h
        have hle1 : timerLe a b = true := (List.pairwise_cons.mp hs₁).1 b hb2
        have hle2 : timerLe b a = true := (List.pairwise_cons.mp hs₂).1 a ha2
        have hd : a.deadline = b.deadline := by
          simp only [timerLe, decide_eq_true_eq] at hle1 hle2
          omega
        exact hne (hinj a (List.mem_cons_self a t) b hmem_b hd)
      subst hab
      have hpt : t.Perm t₂ := hp.cons_inv
      have htail := ih t₂ (List.pairwise_cons.mp hs₁).2 (List.pairwise_cons.mp hs₂).2 hpt
        (fun x hx y hy hd => hinj x (List.mem_cons_of_mem a hx) y (List.mem_cons_of_mem a hy) hd)
      rw [htail]

/-- With pairwise-distinct deadlines the pending list is independent of
insertion order. -/
theorem timerList_indep (es es' : List TimerEvent) (hperm : es.Perm es')
    (hinj : ∀ a ∈ es, ∀ b ∈ es, a.deadline = b.deadline → a = b) :
    timerList es = timerList es' :=
  sorted_perm_eq _ _ (timerList_sorted es) (timerList_sorted es')
    ((timerList_perm es).trans (hperm.trans (timerList_perm es').symm))
    (fun a ha b hb hd => hinj a ((timerList_perm es).mem_iff.mp ha)
      b ((timerList_perm es).mem_iff.mp hb) hd)

/-- C7 (amended): the pending list built by `schedule_timer` holds exactly
the scheduled events sorted by ascending deadline, and events of equal
deadline stay in insertion order.  Only when every elapsed pending event
fires without panicking (i.e. no elapsed `Window` event, whose `fire` is
`todo!()`) does the `process_timer_event` drain complete, firing exactly
the elapsed events in that (ascending, insertion-stable) order and keeping
the rest; an elapsed `Window` event makes the drain panic, so no split is
produced and later elapsed events never fire.  With pairwise-distinct
deadlines the pending order is independent of insertion order. -/
theorem c7_timer_order (es es' : List TimerEvent) (now : Nat) :
    (timerList es).Perm es ∧
    (timerList es).Pairwise (fun a b => a.deadline ≤ b.deadline) ∧
    (∀ d, (timerList es).filter (fun e => e.deadline == d) =
      es.filter (fun e => e.deadline == d)) ∧
    ((∀ e ∈ timerList es, e.until now = false → e.fire.isSome = true) →
      drainTimers now (timerList es) =
        some ((timerList es).filter (fun e => ! e.until now),
          (timerList es).filter (fun e => e.until now))) ∧
    ((∃ e ∈ timerList es, e.until now = false ∧
        ∃ w i, e.timerType = TimerType.window w i) →
      drainTimers now (timerList es) = none) ∧
    (es.Perm es' → (∀ a ∈ es, ∀ b ∈ es, a.deadline = b.deadline → a = b) →
      timerList es = timerList es') := by
  refine ⟨timerList_perm es, ?_, ?_, drainTimers_sorted now _ (timerList_sorted es),
    drainTimers_window_panic now _ (timerList_sorted es), timerList_indep es es'⟩
  · refine (timerList_sorted es).imp ?_
    intro a b h
    simpa [timerLe] using h
  · intro d
    have h := foldl_scheduleTimer_filter es d []
    rw [List.nil_append] at h
    exact h

/-- C7 (counterexample to the original claim): scheduling an elapsed-by-5
`Window` event (deadline 3) together with an elapsed one-shot event
(deadline 4) leaves a pending list all of whose events have elapsed, yet
the drain at instant 5 aborts at the `Window` event's `todo!()` panic and
produces no split — in particular the elapsed deadline-4 one-shot event
never fires. -/
theorem c7_counterexample :
    drainTimers 5 (timerList [⟨3, TimerType.window 1 1⟩, ⟨4, TimerType.oneShot 2⟩]) = none ∧
    (timerList [⟨3, TimerType.window 1 1⟩, ⟨4, TimerType.oneShot 2⟩]).filter
        (fun e => ! e.until 5) =
      [⟨3, TimerType.window 1 1⟩, ⟨4, TimerType.oneShot 2⟩] := by
  have hinjL : ∀ a ∈ [(⟨3, TimerType.window 1 1⟩ : TimerEvent), ⟨4, TimerType.oneShot 2⟩],
      ∀ b ∈ [(⟨3, TimerType.window 1 1⟩ : TimerEvent), ⟨4, TimerType.oneShot 2⟩],
      a.deadline = b.deadline → a = b := by decide
  have htl : timerList [⟨3, TimerType.window 1 1⟩, ⟨4, TimerType.oneShot 2⟩] =
      [⟨3, TimerType.window 1 1⟩, ⟨4, TimerType.oneShot 2⟩] :=
    sorted_perm_eq _ _ (timerList_sorted _) (by decide)
      ((timerList_perm _).trans (by decide))
      (fun a ha b hb hd => hinjL a ((timerList_perm _).mem_iff.mp ha)
        b ((timerList_perm _).mem_iff.mp hb) hd)
  rw [htl]
  exact ⟨by decide, by decide⟩

/-- C7 (witness): three one-shot timers with distinct deadlines 5, 3, 7 give
the same pending list in any insertion order, and — every elapsed event
being a one-shot — draining at instant 5 completes, firing the deadline-3
and deadline-5 events, in that order, and keeping the deadline-7 one. -/
theorem c7_witness :
    timerList [⟨5, TimerType.oneShot 1⟩, ⟨3, TimerType.oneShot 2⟩, ⟨7, TimerType.oneShot 3⟩] =
      timerList [⟨3, TimerType.oneShot 2⟩, ⟨7, TimerType.oneShot 3⟩, ⟨5, TimerType.oneShot 1⟩] ∧
    drainTimers 5 (timerList [⟨5, TimerType.oneShot 1⟩, ⟨3, TimerType.oneShot 2⟩,
        ⟨7, TimerType.oneShot 3⟩]) =
      some ([⟨3, TimerType.oneShot 2⟩, ⟨5, TimerType.oneShot 1⟩],
        [⟨7, TimerType.oneShot 3⟩]) := by
  have hinjL : ∀ a ∈ [(⟨5, TimerType.oneShot 1⟩ : TimerEvent), ⟨3, TimerType.oneShot 2⟩,
      ⟨7, TimerType.oneShot 3⟩], ∀ b ∈ [(⟨5, TimerType.oneShot 1⟩ : TimerEvent),
      ⟨3, TimerType.oneShot 2⟩, ⟨7, TimerType.oneShot 3⟩],
      a.deadline = b.deadline → a = b := by decide
  have htl : timerList [⟨5, TimerType.oneShot 1⟩, ⟨3, TimerType.oneShot 2⟩,
      ⟨7, TimerType.oneShot 3⟩] =
      [⟨3, TimerType.oneShot 2⟩, ⟨5, TimerType.oneShot 1⟩, ⟨7, TimerType.oneShot 3⟩] :=
    sorted_perm_eq _ _ (timerList_sorted _) (by decide)
      ((timerList_perm _).trans (by decide))
      (fun a ha b hb hd => hinjL a ((timerList_perm _).mem_iff.mp ha)
        b ((timerList_perm _).mem_iff.mp hb) hd)
  constructor
  · exact (c7_timer_order [⟨5, TimerType.oneShot 1⟩, ⟨3, TimerType.oneShot 2⟩,
      ⟨7, TimerType.oneShot 3⟩] [⟨3, TimerType.oneShot 2⟩, ⟨7, TimerType.oneShot 3⟩,
      ⟨5, TimerType.oneShot 1⟩] 5).2.2.2.2.2 (by decide) hinjL
  · rw [(c7_timer_order [⟨5, TimerType.oneShot 1⟩, ⟨3, TimerType.oneShot 2⟩,
      ⟨7, TimerType.oneShot 3⟩] [] 5).2.2.2.1 (by rw [htl]; decide), htl]
    decide

end Toe
